import Mathlib

/-!
# librime-predict-leveldb: the prediction store, the handle cache and the engine

A shallow embedding of `src/src/predict_engine.cc` / `predict_engine.h`.

Modelling conventions

* `double` values are rationals (`ℚ`); infinities and NaN are outside the model.
  The first embedding of `UpdatePredict` computes exactly.  The reinforcement
  monotonicity development, whose outcome depends on rounding, uses a second
  embedding that rounds every arithmetic result (`roundDouble`, IEEE-754 binary64).
* A `leveldb::DB` is modelled as a total map from keys to decoded values; the
  msgpack codec is taken as lossless, `Get` misses exactly on absent keys and
  `Put` always succeeds.
* `std::sort` is a library routine whose tie order is unspecified.  It is a
  parameter `sort` of the embedding, constrained only by `StdSortSpec`.
* `an<T>` (`std::shared_ptr<T>`) is an optional handle into an explicit heap of
  reference-counted cells; dereferencing a null pointer is the fault
  `Fault.nullDeref`.
-/

namespace rime

/-! ## Data model -/

/-- Record `struct Prediction { std::string word; double count; }`. -/
structure Prediction where
  word : String
  count : ℚ
deriving DecidableEq

/-- Faults the embedding can report: undefined behaviour in the C++ source. -/
inductive Fault where
  | nullDeref
deriving DecidableEq

/-- The contents behind a `leveldb::DB*`: key to decoded prediction list. -/
abbrev LevelDB := String → Option (List Prediction)

/-- Call `db->Get(ReadOptions(), key, &value)`: `none` is a non-ok status. -/
def LevelDB.Get (db : LevelDB) (key : String) : Option (List Prediction) :=
  db key

/-- Call `db->Put(WriteOptions(), key, value)`. -/
def LevelDB.Put (db : LevelDB) (key : String) (value : List Prediction) : LevelDB :=
  fun k => if k = key then some value else db k

/-- A store with no keys (a freshly created database). -/
def LevelDB.empty : LevelDB := fun _ => none

/-- Class `PredictDb`: the `leveldb::DB* db_` (null when opening failed) and the
transient `candidates_` projection. -/
structure PredictDb where
  db_ : Option LevelDB
  candidates_ : List String

/-- Method `bool valid() { return db_ != nullptr; }`. -/
def PredictDb.valid (self : PredictDb) : Bool :=
  self.db_.isSome

/-- Method `void Clear() { vector<string>().swap(candidates_); }`. -/
def PredictDb.Clear (self : PredictDb) : PredictDb :=
  { self with candidates_ := [] }

/-- Constructor `PredictDb::PredictDb(const path&)`; `opened` is the outcome of
`leveldb::DB::Open` (`none` when the status is not ok). -/
def PredictDb.new (opened : Option LevelDB) : PredictDb :=
  PredictDb.Clear { db_ := opened, candidates_ := [] }

/-! ## `std::sort` with the comparator `b.count < a.count` -/

/-- Weight-descending order: no record has a smaller weight than a later one. -/
def Descending (l : List Prediction) : Prop :=
  l.Pairwise (fun a b => b.count ≤ a.count)

instance (l : List Prediction) : Decidable (Descending l) := by
  unfold Descending; infer_instance

/-- What the C++ standard promises of `std::sort(first, last, comp)` with
`comp a b = b.count < a.count`: the output is a rearrangement of the input in
which `comp` never holds from a later to an earlier element. -/
structure StdSortSpec (sort : List Prediction → List Prediction) : Prop where
  perm : ∀ l, (sort l).Perm l
  sorted : ∀ l, Descending (sort l)

/-- One admissible `std::sort`: insertion sort (stable on ties). -/
def insertionSortDesc (l : List Prediction) : List Prediction :=
  l.insertionSort (fun a b => b.count ≤ a.count)

/-- Another admissible `std::sort`: insertion sort of the reversed input (it
reverses ties). -/
def reverseSortDesc (l : List Prediction) : List Prediction :=
  insertionSortDesc l.reverse

/-! ## `PredictDb::Lookup` and `PredictDb::UpdatePredict` -/

/-- Function `PredictDb::Lookup`: the returned flag and the store afterwards. -/
def PredictDb.Lookup (self : PredictDb) (query : String) : Except Fault (Bool × PredictDb) :=
  match self.db_ with
  | none => .error .nullDeref
  | some db =>
    match db.Get query with
    | none => .ok (false, self)
    | some predict =>
      .ok (true, predict.foldl (fun s entry => { s with candidates_ := s.candidates_ ++ [entry.word] })
        self.Clear)

/-- The loop `for (entry : predict) total_count += entry.count;` from `0.0`. -/
def totalCount (predict : List Prediction) : ℚ :=
  predict.foldl (fun total_count entry => total_count + entry.count) 0

/-- The erase/`remove_if` idiom: drop every record whose word equals `word`. -/
def removeWord (word : String) (predict : List Prediction) : List Prediction :=
  predict.filter (fun p => !(p.word == word))

/-- The loop `for (auto& entry : predict) if (entry.word == word) { entry.count += inc;
found = true; break; }`: the list afterwards and the `found` flag. -/
def bumpFirst (word : String) (inc : ℚ) : List Prediction → List Prediction × Bool
  | [] => ([], false)
  | entry :: rest =>
    if entry.word = word then
      ({ entry with count := entry.count + inc } :: rest, true)
    else
      ((entry :: (bumpFirst word inc rest).1), (bumpFirst word inc rest).2)

/-- The `status.ok()` branch of `UpdatePredict` on the decoded list. -/
def updateFound (sort : List Prediction → List Prediction)
    (predict : List Prediction) (word : String) (todelete : Bool) : List Prediction :=
  let total_count := totalCount predict
  let step : List Prediction × Bool :=
    if todelete then (removeWord word predict, true)
    else bumpFirst word (1 / (total_count + 1)) predict
  let predict := step.1
  let found := step.2
  let predict :=
    if !found && !todelete then predict ++ [⟨word, 1 / (total_count + 1)⟩] else predict
  sort predict

/-- The list `UpdatePredict` packs and writes, given the outcome of `Get`. -/
def updatedList (sort : List Prediction → List Prediction)
    (got : Option (List Prediction)) (word : String) (todelete : Bool) : List Prediction :=
  match got with
  | some predict => updateFound sort predict word todelete
  | none => if !todelete then [⟨word, 1⟩] else []

/-- Function `PredictDb::UpdatePredict(key, word, todelete)`. -/
def PredictDb.UpdatePredict (sort : List Prediction → List Prediction)
    (self : PredictDb) (key word : String) (todelete : Bool) : Except Fault PredictDb :=
  match self.db_ with
  | none => .error .nullDeref
  | some db =>
    .ok { self with db_ := some (db.Put key (updatedList sort (db.Get key) word todelete)) }

/-- The list persisted under `key`, if the store is usable and the key present. -/
def PredictDb.stored (self : PredictDb) (key : String) : Option (List Prediction) :=
  match self.db_ with
  | none => none
  | some db => db.Get key

/-- Result of `n` consecutive `UpdatePredict(key, word, todelete)` calls. -/
def PredictDb.updateTimes (sort : List Prediction → List Prediction)
    (key word : String) (todelete : Bool) : Nat → PredictDb → Except Fault PredictDb
  | 0, s => .ok s
  | n + 1, s =>
    match s.UpdatePredict sort key word todelete with
    | .error e => .error e
    | .ok s' => PredictDb.updateTimes sort key word todelete n s'

/-- What a caller of `Lookup` observes: the flag and `candidates()`. -/
def lookupView (r : Except Fault (Bool × PredictDb)) : Except Fault (Bool × List String) :=
  r.map (fun out => (out.1, out.2.candidates_))

/-- Rank of `word` in a list: index of its first record (`0` is the top). -/
def rankOf (word : String) (l : List Prediction) : Nat :=
  l.findIdx (fun p => p.word == word)

/-- Weight of `word` in a list: the weight of its first record, if any. -/
def weightOf (word : String) (l : List Prediction) : Option ℚ :=
  (l.find? (fun p => p.word == word)).map Prediction.count

/-! ## `PredictEngine::Translate` -/

/-- The part of `rime::Segment` that `Translate` reads (`segment.end`). -/
structure Segment where
  start : Nat
  endPos : Nat

/-- Candidate built by `New<SimpleCandidate>(type, start, end, text)`. -/
structure SimpleCandidate where
  type : String
  start : Nat
  endPos : Nat
  text : String
deriving DecidableEq

/-- Class `PredictEngine`; `level_db_` is a possibly null handle into the
manager heap. -/
structure PredictEngine where
  level_db_ : Option Nat
  max_iterations_ : Int
  max_candidates_ : Int
  query_ : String
  candidates_ : List String

/-- A C++ `int` value after an arithmetic step, wrapped to 32 bits. -/
def wrapInt32 (x : Int) : Int :=
  (x + 2 ^ 31) % 2 ^ 32 - 2 ^ 31

/-- The loop of `Translate`: append a candidate, `i++`, and `break` when
`max_candidates_ > 0 && i >= max_candidates_`. -/
def translateLoop (max_candidates_ : Int) (endPos : Nat) :
    List String → Int → List SimpleCandidate → List SimpleCandidate
  | [], _, translation => translation
  | predict :: rest, i, translation =>
    if max_candidates_ > 0 ∧ wrapInt32 (i + 1) ≥ max_candidates_ then
      translation ++ [⟨"prediction", endPos, endPos, predict⟩]
    else
      translateLoop max_candidates_ endPos rest (wrapInt32 (i + 1))
        (translation ++ [⟨"prediction", endPos, endPos, predict⟩])

/-- Function `PredictEngine::Translate(segment)`: the content of the returned
`FifoTranslation`. -/
def PredictEngine.Translate (self : PredictEngine) (segment : Segment) : List SimpleCandidate :=
  translateLoop self.max_candidates_ segment.endPos self.candidates_ 0 []

/-! ## `PredictDbManager::GetPredictDb` and `PredictEngineComponent::Create` -/

/-- A heap cell made by `std::make_shared<PredictDb>(file_path)`: the object, the
path it was opened for and the number of strong owners (`0` once destroyed). -/
structure Cell where
  path : String
  db : PredictDb
  strong : Nat

/-- Modelled from the spec: the declaration of class `PredictDbManager` is not in
the sources; `db_cache_` maps a storage location to a weak handle.  The heap of
reference-counted cells is made explicit; weak handles are cell indices. -/
structure PredictDbManager where
  db_cache_ : String → Option Nat
  heap : List Cell

/-- The manager of a fresh process: empty cache, nothing allocated. -/
def PredictDbManager.init : PredictDbManager :=
  { db_cache_ := fun _ => none, heap := [] }

/-- Call `weak.lock()`: the handle itself when the cell still has a strong
owner, null otherwise. -/
def weakLock (heap : List Cell) (w : Nat) : Option Nat :=
  match heap[w]? with
  | some c => if 0 < c.strong then some w else none
  | none => none

/-- One more strong owner of cell `h` (copying an `an<PredictDb>`). -/
def retain (heap : List Cell) (h : Nat) : List Cell :=
  match heap[h]? with
  | some c => heap.set h { c with strong := c.strong + 1 }
  | none => heap

/-- One strong owner of cell `h` goes away (destroying an `an<PredictDb>`). -/
def release (heap : List Cell) (h : Nat) : List Cell :=
  match heap[h]? with
  | some c => heap.set h { c with strong := c.strong - 1 }
  | none => heap

/-- The construction path of `GetPredictDb` (from `Creating new PredictDb`):
`cache` is the map after the stale entry, if any, was erased. -/
def constructDb (cache : String → Option Nat) (heap : List Cell) (file_path : String)
    (opened : Option LevelDB) : Option Nat × PredictDbManager :=
  let new_db := PredictDb.new opened
  if new_db.valid then
    (some heap.length,
      { db_cache_ := fun k => if k = file_path then some heap.length else cache k,
        heap := heap ++ [{ path := file_path, db := new_db, strong := 1 }] })
  else
    (none, { db_cache_ := cache,
             heap := heap ++ [{ path := file_path, db := new_db, strong := 0 }] })

/-- Function `PredictDbManager::GetPredictDb(file_path)`; `opened` is what
`leveldb::DB::Open` would yield if a store is constructed by this call.  Returns
the (possibly null) `an<PredictDb>` and the manager afterwards. -/
def PredictDbManager.GetPredictDb (self : PredictDbManager) (file_path : String)
    (opened : Option LevelDB) : Option Nat × PredictDbManager :=
  match self.db_cache_ file_path with
  | some found =>
    match weakLock self.heap found with
    | some db => (some db, { self with heap := retain self.heap db })
    | none =>
      constructDb (fun k => if k = file_path then none else self.db_cache_ k) self.heap
        file_path opened
  | none => constructDb self.db_cache_ self.heap file_path opened

/-- Events on the handle cache: a `GetPredictDb` call, or a holder dropping one
strong reference to a cell. -/
inductive CacheOp where
  | getOrOpen (loc : String) (opened : Option LevelDB)
  | drop (h : Nat)

/-- Effect of one event on the manager. -/
def PredictDbManager.step (m : PredictDbManager) : CacheOp → PredictDbManager
  | .getOrOpen loc opened => (m.GetPredictDb loc opened).2
  | .drop h => { m with heap := release m.heap h }

/-- Effect of a sequence of events, oldest first. -/
def PredictDbManager.run (m : PredictDbManager) (ops : List CacheOp) : PredictDbManager :=
  ops.foldl PredictDbManager.step m

/-- A live store: a cell that still has a strong owner. -/
def liveAt (m : PredictDbManager) (h : Nat) (loc : String) : Prop :=
  ∃ c, m.heap[h]? = some c ∧ 0 < c.strong ∧ c.path = loc

/-- The three values `Create` reads from the schema configuration
(`GetString`/`GetInt` leave the default in place when a value is not set). -/
structure Config where
  predictdb : Option String
  max_candidates : Option Int
  max_iterations : Option Int

/-- The part of `rime::Schema` used here. -/
structure Schema where
  schema_id : String
  config : Config

/-- The part of `rime::Ticket` used here: `ticket.schema` may be null. -/
structure Ticket where
  schema : Option Schema

/-- Function `PredictEngineComponent::Create(ticket)`.  `resolve` is
`resolver->ResolvePath`, `opened` the outcome of `leveldb::DB::Open` should a
store be constructed.  `level_db->valid()` dereferences `level_db`. -/
def PredictEngineComponent.Create (resolve : String → String) (opened : Option LevelDB)
    (mgr : PredictDbManager) (ticket : Ticket) :
    Except Fault (Option PredictEngine × PredictDbManager) :=
  let level_db_name :=
    match ticket.schema with
    | some schema => schema.config.predictdb.getD "predict.userdb"
    | none => "predict.userdb"
  let max_candidates : Int :=
    match ticket.schema with
    | some schema => schema.config.max_candidates.getD 0
    | none => 0
  let max_iterations : Int :=
    match ticket.schema with
    | some schema => schema.config.max_iterations.getD 0
    | none => 0
  let file_path := resolve level_db_name
  let got := mgr.GetPredictDb file_path opened
  match got.1 with
  | none => .error .nullDeref
  | some level_db =>
    match got.2.heap[level_db]? with
    | none => .error .nullDeref
    | some cell =>
      if cell.db.valid then
        .ok (some { level_db_ := some level_db, max_iterations_ := max_iterations,
                    max_candidates_ := max_candidates, query_ := "", candidates_ := [] },
             got.2)
      else
        .ok (none, { got.2 with heap := release got.2.heap level_db })

/-- Every live cell is the one its location cache entry points to. -/
def CacheInv (m : PredictDbManager) : Prop :=
  ∀ h c, m.heap[h]? = some c → 0 < c.strong → m.db_cache_ c.path = some h

/-! ## The reinforcement path in double precision

`Prediction.count` is a C++ `double`.  Where a rounding of `+` or `/` can change
the outcome, the update is embedded with every arithmetic result passed through a
rounding function `rnd`; `roundDouble` is IEEE-754 binary64 round-to-nearest-even
on rationals (overflow to infinity is outside the model), and `RoundSpec` lists the
properties of it that the proofs use.  With `rnd = id` these definitions are the
exact ones above. -/

/-- Round a rational to the nearest integer, ties to the even one. -/
def roundEven (y : ℚ) : ℤ :=
  if y - ⌊y⌋ < 1 / 2 then ⌊y⌋
  else if 1 / 2 < y - ⌊y⌋ then ⌊y⌋ + 1
  else if ⌊y⌋ % 2 = 0 then ⌊y⌋ else ⌊y⌋ + 1

/-- Binary exponent of a binary64 value near `x`: `floor (log2 |x|)`, and `-1022`
in the subnormal range. -/
def binExp (x : ℚ) : ℤ :=
  max (Int.log 2 |x|) (-1022)

/-- Round to the nearest binary64 value (53-bit significand), ties to even. -/
def roundDouble (x : ℚ) : ℚ :=
  roundEven (x / 2 ^ (binExp x - 52)) * 2 ^ (binExp x - 52)

/-- Properties of rounding to `double` on non-negative values: it is monotone,
leaves a rounded value unchanged, and represents `0.0` and `1.0` exactly. -/
structure RoundSpec (rnd : ℚ → ℚ) : Prop where
  mono : ∀ x y, 0 ≤ x → x ≤ y → rnd x ≤ rnd y
  idem : ∀ x, 0 ≤ x → rnd (rnd x) = rnd x
  zero : rnd 0 = 0
  one : rnd 1 = 1

/-- The loop `for (entry : predict) total_count += entry.count;` from `0.0`, each
sum rounded. -/
def totalCountRnd (rnd : ℚ → ℚ) (predict : List Prediction) : ℚ :=
  predict.foldl (fun total_count entry => rnd (total_count + entry.count)) 0

/-- The loop `if (entry.word == word) { entry.count += inc; found = true; break; }`
with the sum rounded. -/
def bumpFirstRnd (rnd : ℚ → ℚ) (word : String) (inc : ℚ) :
    List Prediction → List Prediction × Bool
  | [] => ([], false)
  | entry :: rest =>
    if entry.word = word then
      ({ entry with count := rnd (entry.count + inc) } :: rest, true)
    else
      ((entry :: (bumpFirstRnd rnd word inc rest).1), (bumpFirstRnd rnd word inc rest).2)

/-- The `status.ok()` branch of `UpdatePredict` in double arithmetic: the increment
is `1.0 / (total_count + 1.0)`, sum and quotient rounded. -/
def updateFoundRnd (rnd : ℚ → ℚ) (sort : List Prediction → List Prediction)
    (predict : List Prediction) (word : String) (todelete : Bool) : List Prediction :=
  let total_count := totalCountRnd rnd predict
  let step : List Prediction × Bool :=
    if todelete then (removeWord word predict, true)
    else bumpFirstRnd rnd word (rnd (1 / rnd (total_count + 1))) predict
  let predict := step.1
  let found := step.2
  let predict :=
    if !found && !todelete then predict ++ [⟨word, rnd (1 / rnd (total_count + 1))⟩]
    else predict
  sort predict

/-- The list `UpdatePredict` packs and writes in double arithmetic. -/
def updatedListRnd (rnd : ℚ → ℚ) (sort : List Prediction → List Prediction)
    (got : Option (List Prediction)) (word : String) (todelete : Bool) : List Prediction :=
  match got with
  | some predict => updateFoundRnd rnd sort predict word todelete
  | none => if !todelete then [⟨word, 1⟩] else []

/-- Function `PredictDb::UpdatePredict(key, word, todelete)` in double arithmetic. -/
def PredictDb.UpdatePredictRnd (rnd : ℚ → ℚ) (sort : List Prediction → List Prediction)
    (self : PredictDb) (key word : String) (todelete : Bool) : Except Fault PredictDb :=
  match self.db_ with
  | none => .error .nullDeref
  | some db =>
    .ok { self with
      db_ := some (db.Put key (updatedListRnd rnd sort (db.Get key) word todelete)) }

/-- Result of `n` consecutive `UpdatePredict(key, word, todelete)` calls in double
arithmetic. -/
def PredictDb.updateTimesRnd (rnd : ℚ → ℚ) (sort : List Prediction → List Prediction)
    (key word : String) (todelete : Bool) : Nat → PredictDb → Except Fault PredictDb
  | 0, s => .ok s
  | n + 1, s =>
    match s.UpdatePredictRnd rnd sort key word todelete with
    | .error e => .error e
    | .ok s' => PredictDb.updateTimesRnd rnd sort key word todelete n s'

/-- Result of a sequence of `UpdatePredict(key, word, todelete)` calls in double
arithmetic, oldest first. -/
def PredictDb.applyUpdatesRnd (rnd : ℚ → ℚ) (sort : List Prediction → List Prediction) :
    List (String × String × Bool) → PredictDb → Except Fault PredictDb
  | [], s => .ok s
  | (key, word, todelete) :: rest, s =>
    match s.UpdatePredictRnd rnd sort key word todelete with
    | .error e => .error e
    | .ok s' => PredictDb.applyUpdatesRnd rnd sort rest s'

/-- A list of doubles fit for ranking: weight-descending, every weight non-negative
and a value of the rounding. -/
def Ranked (rnd : ℚ → ℚ) (L : List Prediction) : Prop :=
  Descending L ∧ ∀ p ∈ L, 0 ≤ p.count ∧ rnd p.count = p.count

/-- The properties of a stored list that a reinforcing update of `word` maintains. -/
def Reinforceable (rnd : ℚ → ℚ) (s : PredictDb) (key word : String) : Prop :=
  ∃ L, s.stored key = some L ∧ Ranked rnd L ∧ ∃ p ∈ L, p.word = word

/-- Every list of a usable store is fit for ranking. -/
def WellRanked (rnd : ℚ → ℚ) (s : PredictDb) : Prop :=
  s.valid = true ∧ ∀ key L, s.stored key = some L → Ranked rnd L

/-! ## Sample states -/

/-- A fresh, usable store with no keys. -/
def freshDb : PredictDb :=
  PredictDb.new (some LevelDB.empty)

/-- A usable store holding `[{a, 2}, {世界, 1}]` under the key `你好`. -/
def sampleDb : PredictDb :=
  PredictDb.new (some (LevelDB.empty.Put "你好" [⟨"a", 2⟩, ⟨"世界", 1⟩]))

/-- A usable store holding the tie list `[{a, 1}, {b, 1}]` under the key `你好`. -/
def tieDb : PredictDb :=
  PredictDb.new (some (LevelDB.empty.Put "你好" [⟨"a", 1⟩, ⟨"b", 1⟩]))

/-- Seventeen records of weight `2^27 = 134217728`, the record for `世界` first. -/
def heavyList : List Prediction :=
  ["世界", "w01", "w02", "w03", "w04", "w05", "w06", "w07", "w08", "w09", "w10", "w11",
    "w12", "w13", "w14", "w15", "w16"].map (fun w => ⟨w, 134217728⟩)

/-- A usable store holding `heavyList` under the key `你好`. -/
def heavyDb : PredictDb :=
  PredictDb.new (some (LevelDB.empty.Put "你好" heavyList))

/-- A run of cache events: open `a`, fail to open `b`, ask for `a` again, drop one
reference to the store of `a`. -/
def sampleOps : List CacheOp :=
  [.getOrOpen "a" (some LevelDB.empty), .getOrOpen "b" none, .getOrOpen "a" none, .drop 0]

/-! ## Basic facts about the store operations -/

theorem stdSortSpec_insertionSortDesc : StdSortSpec insertionSortDesc := by
  haveI : IsTotal Prediction (fun a b => b.count ≤ a.count) := ⟨fun a b => le_total b.count a.count⟩
  haveI : IsTrans Prediction (fun a b => b.count ≤ a.count) := ⟨fun _ _ _ h₁ h₂ => le_trans h₂ h₁⟩
  exact ⟨fun l => List.perm_insertionSort _ l, fun l => List.sorted_insertionSort _ l⟩

theorem stdSortSpec_reverseSortDesc : StdSortSpec reverseSortDesc :=
  ⟨fun l => (stdSortSpec_insertionSortDesc.perm l.reverse).trans (List.reverse_perm l),
   fun l => stdSortSpec_insertionSortDesc.sorted l.reverse⟩

theorem bumpFirst_of_absent (word : String) (inc : ℚ) (l : List Prediction)
    (h : ∀ p ∈ l, p.word ≠ word) : bumpFirst word inc l = (l, false) := by
  induction l with
  | nil => rfl
  | cons x xs ih =>
    have hx : x.word ≠ word := h x (List.mem_cons_self _ _)
    have hxs := ih (fun p hp => h p (List.mem_cons_of_mem _ hp))
    simp [bumpFirst, hx, hxs]

theorem bumpFirst_split (word : String) (inc c : ℚ) (pre post : List Prediction)
    (h : ∀ p ∈ pre, p.word ≠ word) :
    bumpFirst word inc (pre ++ ⟨word, c⟩ :: post) = (pre ++ ⟨word, c + inc⟩ :: post, true) := by
  induction pre with
  | nil => simp [bumpFirst]
  | cons x xs ih =>
    have hx : x.word ≠ word := h x (List.mem_cons_self _ _)
    have hxs := ih (fun p hp => h p (List.mem_cons_of_mem _ hp))
    simp [bumpFirst, hx, hxs]

theorem exists_first_split (word : String) (l : List Prediction)
    (h : ∃ p ∈ l, p.word = word) :
    ∃ pre c post, l = pre ++ ⟨word, c⟩ :: post ∧ ∀ p ∈ pre, p.word ≠ word := by
  induction l with
  | nil => simp at h
  | cons x xs ih =>
    by_cases hx : x.word = word
    · refine ⟨[], x.count, xs, ?_, by simp⟩
      cases x; simp at hx; simp [hx]
    · have h' : ∃ p ∈ xs, p.word = word := by
        obtain ⟨p, hp, hpw⟩ := h
        rcases List.mem_cons.1 hp with rfl | hp
        · exact absurd hpw hx
        · exact ⟨p, hp, hpw⟩
      obtain ⟨pre, c, post, hl, hpre⟩ := ih h'
      refine ⟨x :: pre, c, post, by simp [hl], ?_⟩
      intro p hp
      rcases List.mem_cons.1 hp with rfl | hp
      · exact hx
      · exact hpre p hp

theorem removeWord_of_absent (word : String) (l : List Prediction)
    (h : ∀ p ∈ l, p.word ≠ word) : removeWord word l = l := by
  unfold removeWord
  rw [List.filter_eq_self]
  intro p hp
  simp [h p hp]

theorem not_mem_removeWord (word : String) (l : List Prediction) :
    ∀ p ∈ removeWord word l, p.word ≠ word := by
  intro p hp
  unfold removeWord at hp
  simpa using (List.mem_filter.1 hp).2

/-- The non-delete `status.ok()` branch when `word` has a first record. -/
theorem updateFound_insert_present (sort : List Prediction → List Prediction)
    (word : String) (c : ℚ) (pre post : List Prediction) (h : ∀ p ∈ pre, p.word ≠ word) :
    updateFound sort (pre ++ ⟨word, c⟩ :: post) word false
      = sort (pre ++ ⟨word, c + 1 / (totalCount (pre ++ ⟨word, c⟩ :: post) + 1)⟩ :: post) := by
  simp [updateFound, bumpFirst_split word _ c pre post h]

/-- The non-delete `status.ok()` branch when `word` has no record. -/
theorem updateFound_insert_absent (sort : List Prediction → List Prediction)
    (word : String) (l : List Prediction) (h : ∀ p ∈ l, p.word ≠ word) :
    updateFound sort l word false = sort (l ++ [⟨word, 1 / (totalCount l + 1)⟩]) := by
  simp [updateFound, bumpFirst_of_absent word _ l h]

/-- The delete `status.ok()` branch. -/
theorem updateFound_delete (sort : List Prediction → List Prediction)
    (word : String) (l : List Prediction) :
    updateFound sort l word true = sort (removeWord word l) := by
  simp [updateFound]

/-- On a usable store `UpdatePredict` succeeds and rewrites exactly `key`. -/
theorem UpdatePredict_ok (sort : List Prediction → List Prediction) (s : PredictDb)
    (key word : String) (todelete : Bool) (hv : s.valid = true) :
    ∃ s', s.UpdatePredict sort key word todelete = .ok s' ∧
      s'.stored key = some (updatedList sort (s.stored key) word todelete) ∧
      s'.valid = true ∧ s'.candidates_ = s.candidates_ := by
  cases hdb : s.db_ with
  | none => simp [PredictDb.valid, hdb] at hv
  | some db =>
    refine ⟨{ s with db_ := some (db.Put key (updatedList sort (db.Get key) word todelete)) },
      by simp [PredictDb.UpdatePredict, hdb], ?_, rfl, rfl⟩
    simp [PredictDb.stored, hdb, LevelDB.Get, LevelDB.Put]

theorem valid_of_stored {s : PredictDb} {key : String} {l : List Prediction}
    (h : s.stored key = some l) : s.valid = true := by
  cases hdb : s.db_ with
  | none => simp [PredictDb.stored, hdb] at h
  | some db => simp [PredictDb.valid, hdb]

theorem Lookup_of_stored {s : PredictDb} {key : String} {l : List Prediction}
    (h : s.stored key = some l) :
    lookupView (s.Lookup key) = .ok (true, l.map Prediction.word) := by
  cases hdb : s.db_ with
  | none => simp [PredictDb.stored, hdb] at h
  | some db =>
    simp only [PredictDb.stored, hdb] at h
    have hf : ∀ (l : List Prediction) (t : PredictDb),
        (l.foldl (fun s entry => { s with candidates_ := s.candidates_ ++ [entry.word] }) t).candidates_
          = t.candidates_ ++ l.map Prediction.word := by
      intro l
      induction l with
      | nil => intro t; simp
      | cons x xs ih => intro t; simp [ih]
    simp [PredictDb.Lookup, hdb, h, lookupView, Except.map, hf, PredictDb.Clear]

theorem Lookup_of_absent {s : PredictDb} {key : String}
    (hv : s.valid = true) (h : s.stored key = none) :
    lookupView (s.Lookup key) = .ok (false, s.candidates_) := by
  cases hdb : s.db_ with
  | none => simp [PredictDb.valid, hdb] at hv
  | some db =>
    simp only [PredictDb.stored, hdb] at h
    simp [PredictDb.Lookup, hdb, h, lookupView, Except.map]

/-! ## Shared lemmas on the written list -/

theorem sort_singleton {sort : List Prediction → List Prediction} (hsort : StdSortSpec sort)
    (x : Prediction) : sort [x] = [x] :=
  List.perm_singleton.1 (hsort.perm [x])

theorem updatedList_descending {sort : List Prediction → List Prediction}
    (hsort : StdSortSpec sort) (got : Option (List Prediction)) (word : String)
    (todelete : Bool) : Descending (updatedList sort got word todelete) := by
  cases got with
  | none => cases todelete <;> simp [updatedList, Descending]
  | some l => exact hsort.sorted _

theorem updatedList_delete_no_word {sort : List Prediction → List Prediction}
    (hsort : StdSortSpec sort) (got : Option (List Prediction)) (word : String) :
    ∀ p ∈ updatedList sort got word true, p.word ≠ word := by
  cases got with
  | none => simp [updatedList]
  | some l =>
    intro p hp
    simp only [updatedList, updateFound_delete] at hp
    exact not_mem_removeWord word l p ((hsort.perm _).mem_iff.1 hp)

theorem updatedList_words_nodup {sort : List Prediction → List Prediction}
    (hsort : StdSortSpec sort) (got : Option (List Prediction)) (word : String)
    (todelete : Bool) (h : ∀ l, got = some l → (l.map Prediction.word).Nodup) :
    ((updatedList sort got word todelete).map Prediction.word).Nodup := by
  cases got with
  | none => cases todelete <;> simp [updatedList]
  | some l =>
    have hl := h l rfl
    cases todelete with
    | true =>
      simp only [updatedList, updateFound_delete]
      refine (((hsort.perm _).map Prediction.word).nodup_iff).2 ?_
      exact hl.sublist ((List.filter_sublist _).map _)
    | false =>
      by_cases hw : ∃ p ∈ l, p.word = word
      · obtain ⟨pre, c, post, rfl, hpre⟩ := exists_first_split word l hw
        simp only [updatedList, updateFound_insert_present sort word c pre post hpre]
        refine (((hsort.perm _).map Prediction.word).nodup_iff).2 ?_
        simpa using hl
      · have hw' : ∀ p ∈ l, p.word ≠ word := fun p hp hpw => hw ⟨p, hp, hpw⟩
        simp only [updatedList, updateFound_insert_absent sort word l hw']
        refine (((hsort.perm _).map Prediction.word).nodup_iff).2 ?_
        rw [List.map_append, List.nodup_append]
        refine ⟨hl, by simp, ?_⟩
        intro a ha hb
        simp only [List.map_cons, List.map_nil, List.mem_singleton] at hb
        subst hb
        obtain ⟨p, hp, hpw⟩ := List.mem_map.1 ha
        exact hw' p hp hpw

/-- From an absent key, three inserts of `word` leave `{word, 19/10}`: the
increments are `1`, `1/(1+1)` and `1/(3/2+1)`. -/
theorem three_inserts_value {sort : List Prediction → List Prediction}
    (hsort : StdSortSpec sort) (s : PredictDb) (key word : String)
    (hv : s.valid = true) (habs : s.stored key = none) :
    ∃ s', s.updateTimes sort key word false 3 = .ok s' ∧
      s'.stored key = some [⟨word, 19 / 10⟩] := by
  obtain ⟨s1, h1, hs1, hv1, -⟩ := UpdatePredict_ok sort s key word false hv
  obtain ⟨s2, h2, hs2, hv2, -⟩ := UpdatePredict_ok sort s1 key word false hv1
  obtain ⟨s3, h3, hs3, -, -⟩ := UpdatePredict_ok sort s2 key word false hv2
  refine ⟨s3, by simp [PredictDb.updateTimes, h1, h2, h3], ?_⟩
  have e1 : s1.stored key = some [⟨word, 1⟩] := by simp [hs1, habs, updatedList]
  have e2 : s2.stored key = some [⟨word, 3 / 2⟩] := by
    rw [hs2, e1]
    have := updateFound_insert_present sort word 1 [] [] (by simp)
    simp only [List.nil_append] at this
    simp only [updatedList, this, sort_singleton hsort]
    norm_num [totalCount]
  rw [hs3, e2]
  have := updateFound_insert_present sort word (3 / 2) [] [] (by simp)
  simp only [List.nil_append] at this
  simp only [updatedList, this, sort_singleton hsort]
  norm_num [totalCount]

/-- A weight-descending rearrangement of a strictly descending list is that list. -/
theorem eq_of_perm_strict {l l' : List Prediction} (hp : l'.Perm l)
    (hl : l.Pairwise (fun a b => b.count < a.count)) (hl' : Descending l') : l' = l := by
  haveI : IsAntisymm Prediction (fun a b => b.count < a.count) :=
    ⟨fun a b h₁ h₂ => absurd h₁ (not_lt.2 (le_of_lt h₂))⟩
  have hne : l.Pairwise (fun a b => a.count ≠ b.count) := hl.imp (fun h => (ne_of_lt h).symm)
  have hne' : l'.Pairwise (fun a b => a.count ≠ b.count) :=
    (hp.pairwise_iff (fun {a b} (h : a.count ≠ b.count) => h.symm)).2 hne
  have hs' : l'.Pairwise (fun a b => b.count < a.count) :=
    (hl'.and hne').imp (fun h => lt_of_le_of_ne h.1 (Ne.symm h.2))
  exact List.eq_of_perm_of_sorted hp hs' hl

/-! ## Facts about the sample states -/

theorem sampleDb_stored : sampleDb.stored "你好" = some [⟨"a", 2⟩, ⟨"世界", 1⟩] := by
  simp [sampleDb, PredictDb.stored, PredictDb.new, PredictDb.Clear, LevelDB.Get, LevelDB.Put]

theorem tieDb_stored : tieDb.stored "你好" = some [⟨"a", 1⟩, ⟨"b", 1⟩] := by
  simp [tieDb, PredictDb.stored, PredictDb.new, PredictDb.Clear, LevelDB.Get, LevelDB.Put]

theorem sample_descending : Descending [⟨"a", 2⟩, ⟨"世界", 1⟩] := by
  simp [Descending]

theorem sample_unique : ∀ L, sampleDb.stored "你好" = some L → (L.map Prediction.word).Nodup := by
  intro L hL
  rw [sampleDb_stored] at hL
  cases hL
  decide

/-! ## Claims about `PredictDb::UpdatePredict` -/

/-- C1 (bootstrap correctness): on a usable store in which `key` is absent, one
non-delete `UpdatePredict(key, word, false)` succeeds and leaves exactly the single
record `{word, 1.0}` stored under `key`. -/
theorem bootstrap_singleton (sort : List Prediction → List Prediction) (s : PredictDb)
    (key word : String) (hv : s.valid = true) (habs : s.stored key = none) :
    ∃ s', s.UpdatePredict sort key word false = .ok s' ∧
      s'.stored key = some [⟨word, 1⟩] := by
  obtain ⟨s', h, hs, -, -⟩ := UpdatePredict_ok sort s key word false hv
  exact ⟨s', h, by simp [hs, habs, updatedList]⟩

theorem bootstrap_singleton_witness :
    freshDb.valid = true ∧ freshDb.stored "你好" = none ∧
    ∃ s', freshDb.UpdatePredict insertionSortDesc "你好" "世界" false = .ok s' ∧
      s'.stored "你好" = some [⟨"世界", 1⟩] :=
  ⟨rfl, rfl, bootstrap_singleton insertionSortDesc freshDb "你好" "世界" rfl rfl⟩

/-- C3 as stated fails: from an absent key three inserts of `世界` store the weight
`19/10`, which is not `1 + 1/2 + 1/3`. -/
theorem three_inserts_not_harmonic :
    ∃ s', freshDb.updateTimes insertionSortDesc "你好" "世界" false 3 = .ok s' ∧
      s'.stored "你好" = some [⟨"世界", 19 / 10⟩] ∧
      s'.stored "你好" ≠ some [⟨"世界", 1 + 1 / 2 + 1 / 3⟩] := by
  obtain ⟨s', h, hs⟩ := three_inserts_value stdSortSpec_insertionSortDesc
    freshDb "你好" "世界" rfl rfl
  refine ⟨s', h, hs, ?_⟩
  rw [hs]
  intro hc
  simp only [Option.some.injEq, List.cons.injEq, Prediction.mk.injEq, and_true, true_and] at hc
  norm_num at hc

/-- C3 (amended): from an absent key, three consecutive non-delete updates of `word`
succeed and leave the single record `{word, 1 + 1/2 + 1/(3/2+1)} = {word, 19/10}`:
each increment is one over (total weight so far plus one). -/
theorem three_inserts_weight {sort : List Prediction → List Prediction}
    (hsort : StdSortSpec sort) (s : PredictDb) (key word : String)
    (hv : s.valid = true) (habs : s.stored key = none) :
    ∃ s', s.updateTimes sort key word false 3 = .ok s' ∧
      s'.stored key = some [⟨word, 1 + 1 / 2 + 1 / (3 / 2 + 1)⟩] ∧
      (1 + 1 / 2 + 1 / (3 / 2 + 1) : ℚ) = 19 / 10 := by
  have e : (1 + 1 / 2 + 1 / (3 / 2 + 1) : ℚ) = 19 / 10 := by norm_num
  rw [e]
  obtain ⟨s', h, hs⟩ := three_inserts_value hsort s key word hv habs
  exact ⟨s', h, hs, rfl⟩

theorem three_inserts_weight_witness :
    StdSortSpec reverseSortDesc ∧ freshDb.valid = true ∧ freshDb.stored "你好" = none ∧
    ∃ s', freshDb.updateTimes reverseSortDesc "你好" "世界" false 3 = .ok s' ∧
      s'.stored "你好" = some [⟨"世界", 1 + 1 / 2 + 1 / (3 / 2 + 1)⟩] ∧
      (1 + 1 / 2 + 1 / (3 / 2 + 1) : ℚ) = 19 / 10 :=
  ⟨stdSortSpec_reverseSortDesc, rfl, rfl,
    three_inserts_weight stdSortSpec_reverseSortDesc freshDb "你好" "世界" rfl rfl⟩

/-- C6 (sorted after any mutation): on a usable store, after
`UpdatePredict(key, word, todelete)` the list stored under `key` is sorted by weight
descending (each record's weight is at least that of the record after it), whether
`key` was present or absent and whatever the order of the list read. -/
theorem update_stores_descending {sort : List Prediction → List Prediction}
    (hsort : StdSortSpec sort) (s : PredictDb) (key word : String) (todelete : Bool)
    (hv : s.valid = true) :
    ∃ s' L', s.UpdatePredict sort key word todelete = .ok s' ∧
      s'.stored key = some L' ∧ Descending L' ∧
      List.Chain' (fun a b => a.count ≥ b.count) L' := by
  obtain ⟨s', h, hs, -, -⟩ := UpdatePredict_ok sort s key word todelete hv
  have hd := updatedList_descending hsort (s.stored key) word todelete
  exact ⟨s', _, h, hs, hd, List.Pairwise.chain' hd⟩

theorem update_stores_descending_witness :
    StdSortSpec reverseSortDesc ∧ tieDb.valid = true ∧
    ∃ s' L', tieDb.UpdatePredict reverseSortDesc "你好" "世界" false = .ok s' ∧
      s'.stored "你好" = some L' ∧ Descending L' ∧
      List.Chain' (fun a b => a.count ≥ b.count) L' :=
  ⟨stdSortSpec_reverseSortDesc, rfl,
    update_stores_descending stdSortSpec_reverseSortDesc tieDb "你好" "世界" false rfl⟩

/-- C10 (word uniqueness): on a usable store, after `UpdatePredict(key, word, todelete)`
the list stored under `key` has no two records with the same word provided the list
stored before had none (or `key` was absent); and after a delete update it has no
record for `word` at all. -/
theorem update_preserves_unique_words {sort : List Prediction → List Prediction}
    (hsort : StdSortSpec sort) (s : PredictDb) (key word : String) (todelete : Bool)
    (hv : s.valid = true) :
    ∃ s' L', s.UpdatePredict sort key word todelete = .ok s' ∧
      s'.stored key = some L' ∧
      ((∀ L, s.stored key = some L → (L.map Prediction.word).Nodup) →
        (L'.map Prediction.word).Nodup) ∧
      (todelete = true → ∀ p ∈ L', p.word ≠ word) := by
  obtain ⟨s', h, hs, -, -⟩ := UpdatePredict_ok sort s key word todelete hv
  refine ⟨s', _, h, hs, updatedList_words_nodup hsort _ word todelete, ?_⟩
  intro hd
  subst hd
  exact updatedList_delete_no_word hsort _ word

theorem update_preserves_unique_words_witness :
    StdSortSpec insertionSortDesc ∧ sampleDb.valid = true ∧
    (∀ L, sampleDb.stored "你好" = some L → (L.map Prediction.word).Nodup) ∧
    ∃ s' L', sampleDb.UpdatePredict insertionSortDesc "你好" "世界" true = .ok s' ∧
      s'.stored "你好" = some L' ∧ (L'.map Prediction.word).Nodup ∧
      ∀ p ∈ L', p.word ≠ "世界" := by
  obtain ⟨s', L', h, hs, hnd, hdel⟩ :=
    update_preserves_unique_words stdSortSpec_insertionSortDesc sampleDb "你好" "世界" true rfl
  exact ⟨stdSortSpec_insertionSortDesc, rfl, sample_unique,
    s', L', h, hs, hnd sample_unique, hdel rfl⟩

/-- C5 as stated fails. (1) With `你好` absent, `UpdatePredict(你好, 世界, true)` writes
an empty list, and `Lookup` turns from a miss into a hit.  (2) With the tie list
`[{a,1},{b,1}]` stored and a sort that is free on ties, deleting the absent word
`世界` changes the looked-up order. -/
theorem delete_absent_changes_lookup :
    (∃ s', freshDb.UpdatePredict insertionSortDesc "你好" "世界" true = .ok s' ∧
      freshDb.stored "你好" = none ∧
      lookupView (freshDb.Lookup "你好") = .ok (false, []) ∧
      lookupView (s'.Lookup "你好") = .ok (true, [])) ∧
    (∃ s', tieDb.UpdatePredict reverseSortDesc "你好" "世界" true = .ok s' ∧
      tieDb.stored "你好" = some [⟨"a", 1⟩, ⟨"b", 1⟩] ∧
      lookupView (tieDb.Lookup "你好") = .ok (true, ["a", "b"]) ∧
      lookupView (s'.Lookup "你好") = .ok (true, ["b", "a"])) := by
  constructor
  · obtain ⟨s', h, hs, hv, hc⟩ := UpdatePredict_ok insertionSortDesc freshDb "你好" "世界" true rfl
    refine ⟨s', h, rfl, Lookup_of_absent rfl rfl, ?_⟩
    have e : s'.stored "你好" = some [] := by rw [hs]; rfl
    simpa using Lookup_of_stored e
  · obtain ⟨s', h, hs, hv, hc⟩ := UpdatePredict_ok reverseSortDesc tieDb "你好" "世界" true rfl
    refine ⟨s', h, tieDb_stored, by simpa using Lookup_of_stored tieDb_stored, ?_⟩
    have e : s'.stored "你好" = some [⟨"b", 1⟩, ⟨"a", 1⟩] := by
      rw [hs, tieDb_stored]
      simp [updatedList, updateFound_delete, removeWord, reverseSortDesc, insertionSortDesc,
        List.insertionSort, List.orderedInsert]
    simpa using Lookup_of_stored e

/-- C5 (amended): on a usable store whose list under `key` has no record for `word`,
`UpdatePredict(key, word, true)` succeeds and: when `key` is present with list `L` it
stores a weight-descending rearrangement of `L`, and if the weights of `L` are strictly
descending it stores `L` itself and `Lookup(key)` observes the same result before and
after; when `key` is absent it stores the empty list, so `Lookup(key)` turns from a miss
into a hit with no candidates. -/
theorem delete_absent_word {sort : List Prediction → List Prediction}
    (hsort : StdSortSpec sort) (s : PredictDb) (key word : String) (hv : s.valid = true)
    (hw : ∀ L, s.stored key = some L → ∀ p ∈ L, p.word ≠ word) :
    ∃ s', s.UpdatePredict sort key word true = .ok s' ∧
      (∀ L, s.stored key = some L →
        ∃ L', s'.stored key = some L' ∧ L'.Perm L ∧ Descending L' ∧
          (L.Pairwise (fun a b => b.count < a.count) →
            L' = L ∧ lookupView (s'.Lookup key) = lookupView (s.Lookup key))) ∧
      (s.stored key = none →
        s'.stored key = some [] ∧ lookupView (s.Lookup key) = .ok (false, s.candidates_) ∧
        lookupView (s'.Lookup key) = .ok (true, [])) := by
  obtain ⟨s', h, hs, hv', hc⟩ := UpdatePredict_ok sort s key word true hv
  refine ⟨s', h, ?_, ?_⟩
  · intro L hL
    have e : s'.stored key = some (sort L) := by
      rw [hs, hL]
      simp only [updatedList, updateFound_delete, removeWord_of_absent word L (hw L hL)]
    refine ⟨sort L, e, hsort.perm L, hsort.sorted L, ?_⟩
    intro hstrict
    have heq : sort L = L := eq_of_perm_strict (hsort.perm L) hstrict (hsort.sorted L)
    refine ⟨heq, ?_⟩
    rw [heq] at e
    rw [Lookup_of_stored e, Lookup_of_stored hL]
  · intro habs
    have e : s'.stored key = some [] := by rw [hs, habs]; rfl
    exact ⟨e, Lookup_of_absent hv habs, by simpa using Lookup_of_stored e⟩

theorem delete_absent_word_witness :
    StdSortSpec reverseSortDesc ∧ sampleDb.valid = true ∧
    (∀ L, sampleDb.stored "你好" = some L → ∀ p ∈ L, p.word ≠ "b") ∧
    ∃ s', sampleDb.UpdatePredict reverseSortDesc "你好" "b" true = .ok s' ∧
      s'.stored "你好" = some [⟨"a", 2⟩, ⟨"世界", 1⟩] ∧
      lookupView (s'.Lookup "你好") = lookupView (sampleDb.Lookup "你好") := by
  have hw : ∀ L, sampleDb.stored "你好" = some L → ∀ p ∈ L, p.word ≠ "b" := by
    intro L hL p hp
    rw [sampleDb_stored] at hL
    cases hL
    simp only [List.mem_cons, List.mem_singleton, List.not_mem_nil, or_false] at hp
    rcases hp with rfl | rfl <;> decide
  obtain ⟨s', h, hpres, -⟩ :=
    delete_absent_word stdSortSpec_reverseSortDesc sampleDb "你好" "b" rfl hw
  obtain ⟨L', hL', -, -, hstrict⟩ := hpres _ sampleDb_stored
  obtain ⟨heq, hlook⟩ := hstrict (by simp)
  exact ⟨stdSortSpec_reverseSortDesc, rfl, hw, s', h, heq ▸ hL', hlook⟩

/-! ## Claims about `PredictEngine::Translate` -/

theorem wrapInt32_of_range (x : Int) (h₁ : -2 ^ 31 ≤ x) (h₂ : x < 2 ^ 31) : wrapInt32 x = x := by
  unfold wrapInt32
  rw [Int.emod_eq_of_lt (by linarith) (by linarith)]
  ring

theorem translateLoop_unlimited (m : Int) (e : Nat) (hm : m ≤ 0) (c : List String) :
    ∀ (i : Int) (acc : List SimpleCandidate),
      translateLoop m e c i acc = acc ++ c.map (fun w => ⟨"prediction", e, e, w⟩) := by
  induction c with
  | nil => intro i acc; simp [translateLoop]
  | cons x xs ih =>
    intro i acc
    have : ¬ (m > 0) := not_lt.2 hm
    simp [translateLoop, this, ih]

theorem translateLoop_limited (m : Int) (e : Nat) (hm : m < 2 ^ 31) (c : List String) :
    ∀ (i : Int) (acc : List SimpleCandidate), 0 ≤ i → i < m →
      translateLoop m e c i acc
        = acc ++ (c.take (m - i).toNat).map (fun w => ⟨"prediction", e, e, w⟩) := by
  induction c with
  | nil => intro i acc _ _; simp [translateLoop]
  | cons x xs ih =>
    intro i acc hi him
    have hw : wrapInt32 (i + 1) = i + 1 := wrapInt32_of_range _ (by linarith) (by linarith)
    have hpos : m > 0 := by linarith
    obtain ⟨k, hk⟩ : ∃ k : Nat, (m - i).toNat = k + 1 := by
      refine ⟨(m - i).toNat - 1, ?_⟩
      omega
    by_cases hlast : i + 1 ≥ m
    · have hk0 : k = 0 := by omega
      simp [translateLoop, hw, hpos, hlast, hk, hk0]
    · have hk' : (m - (i + 1)).toNat = k := by omega
      simp [translateLoop, hw, hpos, hlast, hk, ih (i + 1) _ (by linarith) (by linarith), hk']

/-- C7 (candidate truncation): for an engine whose `max_candidates_` is a C++ `int`,
`Translate` yields one `prediction` candidate per emitted word, anchored at
`segment.end`; the emitted texts are the first `m` cached words when
`0 < m < n`, and all `n` cached words when `m <= 0` or `m >= n`; no cached word, no
candidate; in particular `m = 3`, `n = 5` gives exactly the first three words. -/
theorem translate_truncates (self : PredictEngine) (segment : Segment)
    (hlo : -2 ^ 31 ≤ self.max_candidates_) (hhi : self.max_candidates_ < 2 ^ 31) :
    (self.Translate segment = ((self.Translate segment).map SimpleCandidate.text).map
        (fun w => ⟨"prediction", segment.endPos, segment.endPos, w⟩)) ∧
    (0 < self.max_candidates_ → self.max_candidates_ < self.candidates_.length →
      (self.Translate segment).map SimpleCandidate.text
        = self.candidates_.take self.max_candidates_.toNat) ∧
    ((self.max_candidates_ ≤ 0 ∨ (self.candidates_.length : Int) ≤ self.max_candidates_) →
      (self.Translate segment).map SimpleCandidate.text = self.candidates_) ∧
    (self.candidates_ = [] → self.Translate segment = []) ∧
    (self.max_candidates_ = 3 → self.candidates_.length = 5 →
      (self.Translate segment).map SimpleCandidate.text = self.candidates_.take 3) := by
  have hmap : ∀ l : List String,
      (l.map (fun w => (⟨"prediction", segment.endPos, segment.endPos, w⟩ : SimpleCandidate))).map
        SimpleCandidate.text = l := by
    intro l; simp [List.map_map, Function.comp_def]
  by_cases hm : self.max_candidates_ ≤ 0
  · have h := translateLoop_unlimited self.max_candidates_ segment.endPos hm self.candidates_ 0 []
    simp only [List.nil_append] at h
    have ht : self.Translate segment = _ := h
    refine ⟨by rw [ht, hmap], fun h0 => absurd h0 (not_lt.2 hm), fun _ => by rw [ht, hmap],
      fun hc => by rw [ht, hc]; rfl, fun h3 => by omega⟩
  · have hpos : 0 < self.max_candidates_ := not_le.1 hm
    have h := translateLoop_limited self.max_candidates_ segment.endPos hhi self.candidates_ 0 []
      le_rfl hpos
    simp only [List.nil_append, sub_zero] at h
    have ht : self.Translate segment = _ := h
    refine ⟨by rw [ht, hmap], fun _ _ => by rw [ht, hmap], ?_, fun hc => by rw [ht, hc]; simp,
      fun h3 _ => by rw [ht, hmap, h3]; rfl⟩
    intro hor
    rw [ht, hmap]
    rcases hor with h0 | hn
    · exact absurd h0 hm
    · exact List.take_of_length_le (by omega)

theorem translate_truncates_witness :
    (-2 ^ 31 ≤ (3 : Int)) ∧ ((3 : Int) < 2 ^ 31) ∧
    (PredictEngine.Translate ⟨some 0, 0, 3, "q", ["a", "b", "c", "d", "e"]⟩ ⟨0, 7⟩).map
      SimpleCandidate.text = ["a", "b", "c"] :=
  ⟨by decide, by decide,
    (translate_truncates ⟨some 0, 0, 3, "q", ["a", "b", "c", "d", "e"]⟩ ⟨0, 7⟩
      (by decide) (by decide)).2.2.2.2 rfl rfl⟩

/-! ## Claims about the handle cache and engine creation -/

theorem weakLock_eq_some {heap : List Cell} {w d : Nat} (h : weakLock heap w = some d) :
    d = w ∧ ∃ c, heap[w]? = some c ∧ 0 < c.strong := by
  unfold weakLock at h
  cases hc : heap[w]? with
  | none => simp [hc] at h
  | some c =>
    simp only [hc] at h
    by_cases hs : 0 < c.strong
    · simp [hs] at h
      exact ⟨h.symm, c, rfl, hs⟩
    · simp [hs] at h

theorem weakLock_of_live {heap : List Cell} {w : Nat} {c : Cell}
    (hc : heap[w]? = some c) (hs : 0 < c.strong) : weakLock heap w = some w := by
  simp [weakLock, hc, hs]

theorem length_retain (heap : List Cell) (h : Nat) : (retain heap h).length = heap.length := by
  unfold retain
  cases heap[h]? <;> simp

theorem retain_getElem? {heap : List Cell} {h j : Nat} {c : Cell}
    (hj : (retain heap h)[j]? = some c) :
    ∃ c0, heap[j]? = some c0 ∧ c0.path = c.path ∧ (j ≠ h → c0 = c) := by
  unfold retain at hj
  cases hc : heap[h]? with
  | none => rw [hc] at hj; exact ⟨c, hj, rfl, fun _ => rfl⟩
  | some c1 =>
    simp only [hc] at hj
    by_cases hjh : h = j
    · subst hjh
      rw [List.getElem?_set_self', hc] at hj
      simp only [Option.map_eq_map, Option.map_some', Function.const_apply,
        Option.some.injEq] at hj
      exact ⟨c1, hc, by rw [← hj], fun hne => absurd rfl hne⟩
    · rw [List.getElem?_set_ne hjh] at hj
      exact ⟨c, hj, rfl, fun _ => rfl⟩

theorem release_getElem? {heap : List Cell} {h j : Nat} {c : Cell}
    (hj : (release heap h)[j]? = some c) :
    ∃ c0, heap[j]? = some c0 ∧ c0.path = c.path ∧ c.strong ≤ c0.strong := by
  unfold release at hj
  cases hc : heap[h]? with
  | none => rw [hc] at hj; exact ⟨c, hj, rfl, le_rfl⟩
  | some c1 =>
    simp only [hc] at hj
    by_cases hjh : h = j
    · subst hjh
      rw [List.getElem?_set_self', hc] at hj
      simp only [Option.map_eq_map, Option.map_some', Function.const_apply,
        Option.some.injEq] at hj
      exact ⟨c1, hc, by rw [← hj], by rw [← hj]; exact Nat.sub_le _ _⟩
    · rw [List.getElem?_set_ne hjh] at hj
      exact ⟨c, hj, rfl, le_rfl⟩

theorem constructDb_inv (cache : String → Option Nat) (heap : List Cell) (loc : String)
    (opened : Option LevelDB)
    (hold : ∀ h c, heap[h]? = some c → 0 < c.strong → c.path ≠ loc ∧ cache c.path = some h) :
    CacheInv (constructDb cache heap loc opened).2 := by
  intro h c hc hs
  unfold constructDb at hc ⊢
  by_cases hv : (PredictDb.new opened).valid = true
  · rw [if_pos hv] at hc ⊢
    simp only [] at hc ⊢
    by_cases hlt : h < heap.length
    · rw [List.getElem?_append_left hlt] at hc
      obtain ⟨hne, hcache⟩ := hold h c hc hs
      simp [hne, hcache]
    · rw [List.getElem?_append_right (not_lt.1 hlt)] at hc
      have hidx : h - heap.length = 0 := by
        by_contra hne
        rw [List.getElem?_eq_none (by simp; omega)] at hc
        exact Option.noConfusion hc
      rw [hidx] at hc
      simp only [List.getElem?_cons_zero, Option.some.injEq] at hc
      subst hc
      have : h = heap.length := by omega
      simp [this]
  · rw [if_neg hv] at hc ⊢
    simp only [] at hc ⊢
    by_cases hlt : h < heap.length
    · rw [List.getElem?_append_left hlt] at hc
      exact (hold h c hc hs).2
    · rw [List.getElem?_append_right (not_lt.1 hlt)] at hc
      have hidx : h - heap.length = 0 := by
        by_contra hne
        rw [List.getElem?_eq_none (by simp; omega)] at hc
        exact Option.noConfusion hc
      rw [hidx] at hc
      simp only [List.getElem?_cons_zero, Option.some.injEq] at hc
      subst hc
      simp at hs

theorem GetPredictDb_inv (m : PredictDbManager) (loc : String) (opened : Option LevelDB)
    (hinv : CacheInv m) : CacheInv (m.GetPredictDb loc opened).2 := by
  unfold PredictDbManager.GetPredictDb
  cases hf : m.db_cache_ loc with
  | none =>
    simp only []
    apply constructDb_inv
    intro h c hc hs
    have := hinv h c hc hs
    refine ⟨?_, this⟩
    intro hp
    rw [hp, hf] at this
    exact Option.noConfusion this
  | some found =>
    simp only []
    cases hl : weakLock m.heap found with
    | some db =>
      simp only []
      obtain ⟨hdb, c1, hc1, hs1⟩ := weakLock_eq_some hl
      subst hdb
      intro h c hc hs
      obtain ⟨c0, hc0, hpath, hsame⟩ := retain_getElem? hc
      by_cases hh : h = db
      · subst hh
        rw [hc1] at hc0
        cases hc0
        rw [← hpath]
        exact hinv _ _ hc1 hs1
      · have := hsame hh
        subst this
        exact hinv _ _ hc0 hs
    | none =>
      simp only []
      apply constructDb_inv
      intro h c hc hs
      have hcache := hinv h c hc hs
      have hne : c.path ≠ loc := by
        intro hp
        rw [hp, hf] at hcache
        cases hcache
        rw [weakLock_of_live hc hs] at hl
        exact Option.noConfusion hl
      exact ⟨hne, by simp [hne, hcache]⟩

theorem step_inv (m : PredictDbManager) (op : CacheOp) (hinv : CacheInv m) :
    CacheInv (m.step op) := by
  cases op with
  | getOrOpen loc opened => exact GetPredictDb_inv m loc opened hinv
  | drop h =>
    intro j c hc hs
    obtain ⟨c0, hc0, hpath, hle⟩ := release_getElem? hc
    rw [← hpath]
    exact hinv j c0 hc0 (lt_of_lt_of_le hs hle)

theorem run_inv (ops : List CacheOp) : ∀ m, CacheInv m → CacheInv (m.run ops) := by
  induction ops with
  | nil => intro m h; exact h
  | cons op ops ih => intro m h; exact ih _ (step_inv m op h)

theorem init_inv : CacheInv PredictDbManager.init := by
  intro h c hc
  simp [PredictDbManager.init] at hc

theorem GetPredictDb_hit (m : PredictDbManager) (loc : String) (opened : Option LevelDB)
    (h : Nat) (hinv : CacheInv m) (hlive : liveAt m h loc) :
    m.GetPredictDb loc opened = (some h, { m with heap := retain m.heap h }) := by
  obtain ⟨c, hc, hs, hp⟩ := hlive
  have hcache := hinv h c hc hs
  rw [hp] at hcache
  simp [PredictDbManager.GetPredictDb, hcache, weakLock_of_live hc hs]

/-- C9 (cache single-instance): after any sequence of `GetPredictDb` calls and
reference drops from a fresh manager, (1) at most one live store exists per location;
(2) a `GetPredictDb(loc)` made while a store for `loc` is still strongly held returns
that same store and constructs nothing; (3) a call constructs a store only when `loc`
has no cache entry or its weak entry has expired. -/
theorem cache_single_instance (ops : List CacheOp) :
    (∀ loc h₁ h₂, liveAt (PredictDbManager.init.run ops) h₁ loc →
      liveAt (PredictDbManager.init.run ops) h₂ loc → h₁ = h₂) ∧
    (∀ loc h opened, liveAt (PredictDbManager.init.run ops) h loc →
      ((PredictDbManager.init.run ops).GetPredictDb loc opened).1 = some h ∧
      ((PredictDbManager.init.run ops).GetPredictDb loc opened).2.heap.length
        = (PredictDbManager.init.run ops).heap.length) ∧
    (∀ loc opened,
      ((PredictDbManager.init.run ops).GetPredictDb loc opened).2.heap.length
        ≠ (PredictDbManager.init.run ops).heap.length →
      (PredictDbManager.init.run ops).db_cache_ loc = none ∨
      ∃ w, (PredictDbManager.init.run ops).db_cache_ loc = some w ∧
        weakLock (PredictDbManager.init.run ops).heap w = none) := by
  have hinv : CacheInv (PredictDbManager.init.run ops) := run_inv ops _ init_inv
  generalize PredictDbManager.init.run ops = m at hinv
  refine ⟨?_, ?_, ?_⟩
  · intro loc h₁ h₂ ⟨c₁, hc₁, hs₁, hp₁⟩ ⟨c₂, hc₂, hs₂, hp₂⟩
    have e₁ := hinv h₁ c₁ hc₁ hs₁
    have e₂ := hinv h₂ c₂ hc₂ hs₂
    rw [hp₁] at e₁
    rw [hp₂, e₁] at e₂
    exact Option.some.inj e₂
  · intro loc h opened hlive
    rw [GetPredictDb_hit m loc opened h hinv hlive]
    exact ⟨rfl, length_retain _ _⟩
  · intro loc opened hne
    cases hf : m.db_cache_ loc with
    | none => exact Or.inl rfl
    | some w =>
      refine Or.inr ⟨w, rfl, ?_⟩
      cases hl : weakLock m.heap w with
      | none => rfl
      | some d =>
        exfalso
        apply hne
        simp [PredictDbManager.GetPredictDb, hf, hl, length_retain]

theorem cache_single_instance_witness :
    liveAt (PredictDbManager.init.run sampleOps) 0 "a" ∧
    ((PredictDbManager.init.run sampleOps).GetPredictDb "a" none).1 = some 0 ∧
    ((PredictDbManager.init.run sampleOps).GetPredictDb "a" none).2.heap.length
      = (PredictDbManager.init.run sampleOps).heap.length :=
  ⟨⟨⟨"a", PredictDb.new (some LevelDB.empty), 1⟩, rfl, by decide, rfl⟩,
   (cache_single_instance sampleOps).2.1 "a" 0 none
     ⟨⟨"a", PredictDb.new (some LevelDB.empty), 1⟩, rfl, by decide, rfl⟩⟩

/-- With a store that opens, `Create` on a fresh manager returns an engine bound to
the new store and carrying the configured limits. -/
theorem create_openable (resolve : String → String) (db : LevelDB) (ticket : Ticket) :
    ∃ engine m', PredictEngineComponent.Create resolve (some db) PredictDbManager.init ticket
        = .ok (some engine, m') ∧ engine.level_db_ = some 0 := by
  simp [PredictEngineComponent.Create, PredictDbManager.GetPredictDb, PredictDbManager.init,
    constructDb, PredictDb.new, PredictDb.Clear, PredictDb.valid]

/-- C8 (code defect): when the store at the resolved location cannot be opened,
`GetPredictDb` returns a null handle and `Create` evaluates `level_db->valid()` on it:
for every ticket and resolver, on a fresh manager, the call faults with a null
dereference instead of returning none. -/
theorem create_unopenable_faults (resolve : String → String) (ticket : Ticket) :
    (PredictDbManager.init.GetPredictDb
        (resolve (match ticket.schema with
          | some schema => schema.config.predictdb.getD "predict.userdb"
          | none => "predict.userdb")) none).1 = none ∧
    PredictEngineComponent.Create resolve none PredictDbManager.init ticket
      = .error .nullDeref := by
  simp [PredictEngineComponent.Create, PredictDbManager.GetPredictDb, PredictDbManager.init,
    constructDb, PredictDb.new, PredictDb.Clear, PredictDb.valid]

/-! ## Reinforcement monotonicity -/

theorem rankOf_split (word : String) (c : ℚ) (pre post : List Prediction)
    (h : ∀ p ∈ pre, p.word ≠ word) : rankOf word (pre ++ ⟨word, c⟩ :: post) = pre.length := by
  induction pre with
  | nil => simp [rankOf, List.findIdx_cons]
  | cons x xs ih =>
    have hx : x.word ≠ word := h x (List.mem_cons_self _ _)
    have hxs := ih (fun p hp => h p (List.mem_cons_of_mem _ hp))
    have hx' : (x.word == word) = false := beq_eq_false_iff_ne.2 hx
    unfold rankOf at hxs ⊢
    simp [List.findIdx_cons, hx', hxs]

theorem weightOf_split (word : String) (c : ℚ) (pre post : List Prediction)
    (h : ∀ p ∈ pre, p.word ≠ word) : weightOf word (pre ++ ⟨word, c⟩ :: post) = some c := by
  induction pre with
  | nil => simp [weightOf]
  | cons x xs ih =>
    have hx : x.word ≠ word := h x (List.mem_cons_self _ _)
    have hxs := ih (fun p hp => h p (List.mem_cons_of_mem _ hp))
    unfold weightOf at hxs ⊢
    simpa [List.find?_cons, hx] using hxs

theorem rankOf_le_of_split (word : String) (A B : List Prediction) (b : Prediction)
    (hb : b.word = word) : rankOf word (A ++ b :: B) ≤ A.length := by
  induction A with
  | nil => simp [rankOf, List.findIdx_cons, hb]
  | cons x xs ih =>
    unfold rankOf at ih ⊢
    by_cases hx : x.word = word
    · simp [List.findIdx_cons, hx]
    · have hx' : (x.word == word) = false := beq_eq_false_iff_ne.2 hx
      simp [List.findIdx_cons, hx', ih]

/-- If a descending list `A ++ b' :: B` rearranges `pre ++ b' :: post`, every record
of `A` outweighs `c` and no record of `post` does, then `A` is no longer than `pre`. -/
theorem front_length_le (A B pre post : List Prediction) (b' : Prediction) (c : ℚ)
    (hperm : (A ++ b' :: B).Perm (pre ++ b' :: post))
    (hA : ∀ a ∈ A, c < a.count) (hpost : ∀ p ∈ post, p.count ≤ c) :
    A.length ≤ pre.length := by
  have h1 : (b' :: (A ++ B)).Perm (b' :: (pre ++ post)) :=
    (List.perm_middle.symm.trans hperm).trans List.perm_middle
  have h2 : (A ++ B).Perm (pre ++ post) := (List.perm_cons b').1 h1
  have h3 := h2.countP_eq (fun p => decide (c < p.count))
  rw [List.countP_append, List.countP_append] at h3
  have hAc : A.countP (fun p => decide (c < p.count)) = A.length := by
    rw [List.countP_eq_length]
    intro a ha
    simpa using hA a ha
  have hpc : post.countP (fun p => decide (c < p.count)) = 0 := by
    rw [List.countP_eq_zero]
    intro p hp
    simpa using hpost p hp
  have hpre : pre.countP (fun p => decide (c < p.count)) ≤ pre.length := List.countP_le_length _
  omega

/-! ## Rounding to double -/

theorem roundEven_intCast (n : ℤ) : roundEven (n : ℚ) = n := by
  simp [roundEven]

theorem floor_le_roundEven (y : ℚ) : ⌊y⌋ ≤ roundEven y := by
  unfold roundEven
  split_ifs <;> omega

theorem roundEven_le_floor_succ (y : ℚ) : roundEven y ≤ ⌊y⌋ + 1 := by
  unfold roundEven
  split_ifs <;> omega

theorem roundEven_mono {y₁ y₂ : ℚ} (h : y₁ ≤ y₂) : roundEven y₁ ≤ roundEven y₂ := by
  have hf : ⌊y₁⌋ ≤ ⌊y₂⌋ := Int.floor_mono h
  rcases lt_or_eq_of_le hf with hlt | heq
  · calc roundEven y₁ ≤ ⌊y₁⌋ + 1 := roundEven_le_floor_succ y₁
      _ ≤ ⌊y₂⌋ := hlt
      _ ≤ roundEven y₂ := floor_le_roundEven y₂
  · unfold roundEven
    rw [heq]
    split_ifs <;> first | omega | (exfalso; linarith)

theorem two_zpow_pos (k : ℤ) : (0 : ℚ) < 2 ^ k := zpow_pos (by norm_num) k

theorem two_zpow_mono {a b : ℤ} (h : a ≤ b) : (2 : ℚ) ^ a ≤ 2 ^ b :=
  zpow_le_zpow_right₀ (by norm_num) h

theorem binExp_ge (x : ℚ) : -1022 ≤ binExp x := le_max_right _ _

theorem lt_zpow_binExp {x : ℚ} (hx : 0 < x) : x < 2 ^ (binExp x + 1) := by
  have h := Int.lt_zpow_succ_log_self (R := ℚ) (b := 2) (by norm_num) x
  have h2 : ((2 : ℕ) : ℚ) = 2 := by norm_num
  rw [h2] at h
  have hle : Int.log 2 x + 1 ≤ binExp x + 1 := by
    unfold binExp
    rw [abs_of_pos hx]
    have := le_max_left (Int.log 2 x) (-1022)
    omega
  exact lt_of_lt_of_le h (two_zpow_mono hle)

theorem zpow_binExp_le {x : ℚ} (hx : 0 < x) (h : -1022 < binExp x) : 2 ^ binExp x ≤ x := by
  have hE : binExp x = Int.log 2 x := by
    unfold binExp at h ⊢
    rw [abs_of_pos hx] at h ⊢
    rcases le_total (Int.log 2 x) (-1022) with h1 | h1
    · rw [max_eq_right h1] at h; omega
    · exact max_eq_left h1
  rw [hE]
  have := Int.zpow_log_le_self (R := ℚ) (b := 2) (by norm_num) hx
  have h2 : ((2 : ℕ) : ℚ) = 2 := by norm_num
  rwa [h2] at this

theorem binExp_mono {x y : ℚ} (hx : 0 < x) (h : x ≤ y) : binExp x ≤ binExp y := by
  unfold binExp
  rw [abs_of_pos hx, abs_of_pos (lt_of_lt_of_le hx h)]
  exact max_le_max (Int.log_mono_right hx h) le_rfl

theorem binExp_le_of_lt {x : ℚ} {k : ℤ} (hx : 0 < x) (hk : -1022 ≤ k) (h : x < 2 ^ (k + 1)) :
    binExp x ≤ k := by
  unfold binExp
  rw [abs_of_pos hx]
  have h2 : ((2 : ℕ) : ℚ) = 2 := by norm_num
  have := (Int.lt_zpow_iff_log_lt (R := ℚ) (b := 2) (by norm_num) (x := k + 1) hx).1
    (by rw [h2]; exact h)
  exact max_le (by omega) hk

theorem roundDouble_zero : roundDouble 0 = 0 := by
  simp [roundDouble, roundEven]

theorem roundDouble_nonneg {x : ℚ} (hx : 0 ≤ x) : 0 ≤ roundDouble x := by
  unfold roundDouble
  have hq := two_zpow_pos (binExp x - 52)
  have h0 : (0 : ℤ) ≤ roundEven (x / 2 ^ (binExp x - 52)) := by
    have := roundEven_mono (div_nonneg hx (le_of_lt hq))
    rwa [show roundEven (0 : ℚ) = 0 from by simpa using roundEven_intCast 0] at this
  exact mul_nonneg (by exact_mod_cast h0) (le_of_lt hq)

/-- A value `n * 2^k` with `k ≥ -1074` that lies below `2^(k+53)` is a double. -/
theorem roundDouble_grid (n : ℤ) (k : ℤ) (hk : -1074 ≤ k) (hpos : 0 < (n : ℚ) * 2 ^ k)
    (hlt : (n : ℚ) * 2 ^ k < 2 ^ (k + 53)) : roundDouble (n * 2 ^ k) = n * 2 ^ k := by
  have hE : binExp ((n : ℚ) * 2 ^ k) ≤ k + 52 :=
    binExp_le_of_lt hpos (by omega) (by rw [show k + 52 + 1 = k + 53 by ring]; exact hlt)
  unfold roundDouble
  generalize binExp ((n : ℚ) * 2 ^ k) = E at hE
  obtain ⟨m, hm⟩ : ∃ m : ℕ, k = (E - 52) + m := ⟨(k - (E - 52)).toNat, by omega⟩
  have hdiv : (n : ℚ) * 2 ^ k / 2 ^ (E - 52) = ((n * 2 ^ m : ℤ) : ℚ) := by
    rw [hm, zpow_add₀ (by norm_num : (2 : ℚ) ≠ 0), zpow_natCast]
    have := two_zpow_pos (E - 52)
    field_simp
    ring
  rw [hdiv, roundEven_intCast, hm, zpow_add₀ (by norm_num : (2 : ℚ) ≠ 0), zpow_natCast]
  push_cast
  ring

theorem two_zpow_split (E : ℤ) : (2 : ℚ) ^ (E + 1) = 2 ^ (53 : ℕ) * 2 ^ (E - 52) := by
  rw [← zpow_natCast, ← zpow_add₀ (by norm_num : (2 : ℚ) ≠ 0)]
  congr 1
  omega

theorem two_zpow_split' (E : ℤ) : (2 : ℚ) ^ E = 2 ^ (52 : ℕ) * 2 ^ (E - 52) := by
  rw [← zpow_natCast, ← zpow_add₀ (by norm_num : (2 : ℚ) ≠ 0)]
  congr 1
  omega

theorem roundEven_le_of_le_int {y : ℚ} {n : ℤ} (h : y ≤ n) : roundEven y ≤ n := by
  have := roundEven_mono h
  rwa [roundEven_intCast] at this

theorem le_roundEven_of_int_le {y : ℚ} {n : ℤ} (h : (n : ℚ) ≤ y) : n ≤ roundEven y := by
  have := roundEven_mono h
  rwa [roundEven_intCast] at this

/-- The significand of a positive value is at most `2^53`. -/
theorem roundEven_significand_le {x : ℚ} (hx : 0 < x) :
    roundEven (x / 2 ^ (binExp x - 52)) ≤ 2 ^ (53 : ℕ) := by
  apply roundEven_le_of_le_int
  have hq := two_zpow_pos (binExp x - 52)
  rw [div_le_iff₀ hq]
  have := lt_zpow_binExp hx
  rw [two_zpow_split] at this
  push_cast
  exact le_of_lt this

theorem roundDouble_le_zpow {x : ℚ} (hx : 0 < x) : roundDouble x ≤ 2 ^ (binExp x + 1) := by
  unfold roundDouble
  rw [two_zpow_split]
  have hq := two_zpow_pos (binExp x - 52)
  have h := roundEven_significand_le hx
  have h' : ((roundEven (x / 2 ^ (binExp x - 52)) : ℤ) : ℚ) ≤ 2 ^ (53 : ℕ) := by exact_mod_cast h
  exact mul_le_mul_of_nonneg_right h' (le_of_lt hq)

theorem zpow_le_roundDouble {x : ℚ} (hx : 0 < x) (h : -1022 < binExp x) :
    2 ^ binExp x ≤ roundDouble x := by
  unfold roundDouble
  have hq := two_zpow_pos (binExp x - 52)
  have hle := zpow_binExp_le hx h
  have h1 : (2 : ℤ) ^ (52 : ℕ) ≤ roundEven (x / 2 ^ (binExp x - 52)) := by
    apply le_roundEven_of_int_le
    rw [le_div_iff₀ hq]
    have e := two_zpow_split' (binExp x)
    rw [e] at hle
    exact_mod_cast hle
  have h1' : (2 : ℚ) ^ (52 : ℕ) ≤ ((roundEven (x / 2 ^ (binExp x - 52)) : ℤ) : ℚ) := by
    exact_mod_cast h1
  calc (2 : ℚ) ^ binExp x = 2 ^ (52 : ℕ) * 2 ^ (binExp x - 52) := two_zpow_split' _
    _ ≤ _ := mul_le_mul_of_nonneg_right h1' (le_of_lt hq)

theorem roundDouble_mono {x y : ℚ} (hx : 0 ≤ x) (h : x ≤ y) : roundDouble x ≤ roundDouble y := by
  rcases eq_or_lt_of_le hx with h0 | hpos
  · rw [← h0, roundDouble_zero]
    exact roundDouble_nonneg (le_trans hx h)
  · have hy : 0 < y := lt_of_lt_of_le hpos h
    rcases eq_or_lt_of_le (binExp_mono hpos h) with he | hlt
    · unfold roundDouble
      rw [← he]
      have hq := two_zpow_pos (binExp x - 52)
      have hr := roundEven_mono (div_le_div_of_nonneg_right h (le_of_lt hq))
      have hr' : ((roundEven (x / 2 ^ (binExp x - 52)) : ℤ) : ℚ)
          ≤ ((roundEven (y / 2 ^ (binExp x - 52)) : ℤ) : ℚ) := by exact_mod_cast hr
      exact mul_le_mul_of_nonneg_right hr' (le_of_lt hq)
    · calc roundDouble x ≤ 2 ^ (binExp x + 1) := roundDouble_le_zpow hpos
        _ ≤ 2 ^ binExp y := two_zpow_mono (by omega)
        _ ≤ roundDouble y := zpow_le_roundDouble hy (by have := binExp_ge x; omega)

theorem roundDouble_idem {x : ℚ} (hx : 0 ≤ x) : roundDouble (roundDouble x) = roundDouble x := by
  rcases eq_or_lt_of_le hx with h0 | hpos
  · rw [← h0, roundDouble_zero, roundDouble_zero]
  · have hn0 : 0 ≤ roundDouble x := roundDouble_nonneg hx
    have hle := roundEven_significand_le hpos
    have hE := binExp_ge x
    have hq := two_zpow_pos (binExp x - 52)
    rcases eq_or_lt_of_le hn0 with hz | hp
    · rw [← hz, roundDouble_zero]
    · rcases eq_or_lt_of_le hle with heq | hlt
      · have hv : roundDouble x = ((2 ^ (52 : ℕ) : ℤ) : ℚ) * 2 ^ (binExp x - 51) := by
          unfold roundDouble
          rw [heq]
          push_cast
          rw [show binExp x - 51 = (binExp x - 52) + 1 by ring,
            zpow_add₀ (by norm_num : (2 : ℚ) ≠ 0)]
          norm_num
          ring
        rw [hv]
        apply roundDouble_grid _ _ (by omega)
        · rw [← hv]; exact hp
        · push_cast
          rw [show binExp x - 51 + 53 = (binExp x - 51) + 53 by ring,
            zpow_add₀ (by norm_num : (2 : ℚ) ≠ 0)]
          have := two_zpow_pos (binExp x - 51)
          norm_num
          nlinarith
      · have hv : roundDouble x
            = ((roundEven (x / 2 ^ (binExp x - 52)) : ℤ) : ℚ) * 2 ^ (binExp x - 52) := rfl
        rw [hv]
        apply roundDouble_grid _ _ (by omega)
        · rw [← hv]; exact hp
        · rw [zpow_add₀ (by norm_num : (2 : ℚ) ≠ 0), mul_comm ((2 : ℚ) ^ (binExp x - 52))]
          have hlt' : ((roundEven (x / 2 ^ (binExp x - 52)) : ℤ) : ℚ) < 2 ^ (53 : ℤ) := by
            have : ((roundEven (x / 2 ^ (binExp x - 52)) : ℤ) : ℚ) < ((2 ^ (53 : ℕ) : ℤ) : ℚ) := by
              exact_mod_cast hlt
            have e : (((2 : ℤ) ^ (53 : ℕ) : ℤ) : ℚ) = (2 : ℚ) ^ (53 : ℤ) := by norm_num
            rwa [e] at this
          exact mul_lt_mul_of_pos_right hlt' hq

theorem roundDouble_intCast (n : ℤ) (h0 : 0 < n) (h : n < 2 ^ (53 : ℕ)) :
    roundDouble (n : ℚ) = n := by
  have hlt : (n : ℚ) * 2 ^ (0 : ℤ) < 2 ^ ((0 : ℤ) + 53) := by
    have h' : ((n : ℤ) : ℚ) < (((2 : ℤ) ^ (53 : ℕ) : ℤ) : ℚ) := by exact_mod_cast h
    have e : (((2 : ℤ) ^ (53 : ℕ) : ℤ) : ℚ) = (2 : ℚ) ^ ((0 : ℤ) + 53) := by norm_num
    rw [e] at h'
    rw [zpow_zero, mul_one]
    exact h'
  have := roundDouble_grid n 0 (by norm_num) (by simpa using h0) hlt
  simpa using this

theorem roundDouble_one : roundDouble 1 = 1 := by
  simpa using roundDouble_intCast 1 (by norm_num) (by norm_num)

theorem roundEven_of_lt_half (n : ℤ) (y : ℚ) (h0 : (n : ℚ) ≤ y) (h1 : y < n + 1 / 2) :
    roundEven y = n := by
  have hf : ⌊y⌋ = n := by
    rw [Int.floor_eq_iff]
    exact ⟨h0, by linarith⟩
  unfold roundEven
  rw [hf]
  have : y - n < 1 / 2 := by linarith
  rw [if_pos this]

/-- At `2^27` the spacing of doubles is `2^-25`: an addend up to `2^-31` is absorbed. -/
theorem roundDouble_absorb (d : ℚ) (h0 : 0 ≤ d) (h1 : d ≤ 1 / 2147483648) :
    roundDouble (134217728 + d) = 134217728 := by
  have hx : (0 : ℚ) < 134217728 + d := by linarith
  have hE : binExp (134217728 + d) = 27 := by
    apply le_antisymm
    · apply binExp_le_of_lt hx (by norm_num)
      norm_num
      linarith
    · unfold binExp
      rw [abs_of_pos hx]
      refine le_trans ?_ (le_max_left _ _)
      rw [← Int.zpow_le_iff_le_log (by norm_num) hx]
      norm_num
      linarith
  unfold roundDouble
  rw [hE]
  have hr : roundEven ((134217728 + d) / 2 ^ ((27 : ℤ) - 52)) = 4503599627370496 := by
    apply roundEven_of_lt_half
    · norm_num
      rw [le_div_iff₀ (by norm_num)]
      linarith
    · norm_num
      rw [div_lt_iff₀ (by norm_num)]
      linarith
  rw [hr]
  norm_num

theorem roundSpec_roundDouble : RoundSpec roundDouble :=
  ⟨fun _ _ hx h => roundDouble_mono hx h, fun _ hx => roundDouble_idem hx,
    roundDouble_zero, roundDouble_one⟩

theorem roundSpec_id : RoundSpec id :=
  ⟨fun _ _ _ h => h, fun _ _ => rfl, rfl, rfl⟩

/-! ## The rounded update -/

theorem bumpFirstRnd_id (word : String) (inc : ℚ) (l : List Prediction) :
    bumpFirstRnd id word inc l = bumpFirst word inc l := by
  induction l with
  | nil => rfl
  | cons x xs ih => simp [bumpFirstRnd, bumpFirst, ih]

/-- With exact arithmetic the rounded update is the exact one. -/
theorem updatedListRnd_id (sort : List Prediction → List Prediction)
    (got : Option (List Prediction)) (word : String) (todelete : Bool) :
    updatedListRnd id sort got word todelete = updatedList sort got word todelete := by
  cases got with
  | none => rfl
  | some l =>
    simp [updatedListRnd, updatedList, updateFoundRnd, updateFound, bumpFirstRnd_id,
      totalCountRnd, totalCount]

theorem bumpFirstRnd_of_absent (rnd : ℚ → ℚ) (word : String) (inc : ℚ) (l : List Prediction)
    (h : ∀ p ∈ l, p.word ≠ word) : bumpFirstRnd rnd word inc l = (l, false) := by
  induction l with
  | nil => rfl
  | cons x xs ih =>
    have hx : x.word ≠ word := h x (List.mem_cons_self _ _)
    have hxs := ih (fun p hp => h p (List.mem_cons_of_mem _ hp))
    simp [bumpFirstRnd, hx, hxs]

theorem bumpFirstRnd_split (rnd : ℚ → ℚ) (word : String) (inc c : ℚ)
    (pre post : List Prediction) (h : ∀ p ∈ pre, p.word ≠ word) :
    bumpFirstRnd rnd word inc (pre ++ ⟨word, c⟩ :: post)
      = (pre ++ ⟨word, rnd (c + inc)⟩ :: post, true) := by
  induction pre with
  | nil => simp [bumpFirstRnd]
  | cons x xs ih =>
    have hx : x.word ≠ word := h x (List.mem_cons_self _ _)
    have hxs := ih (fun p hp => h p (List.mem_cons_of_mem _ hp))
    simp [bumpFirstRnd, hx, hxs]

theorem updateFoundRnd_insert_present (rnd : ℚ → ℚ) (sort : List Prediction → List Prediction)
    (word : String) (c : ℚ) (pre post : List Prediction) (h : ∀ p ∈ pre, p.word ≠ word) :
    updateFoundRnd rnd sort (pre ++ ⟨word, c⟩ :: post) word false
      = sort (pre ++ ⟨word, rnd (c + rnd (1 / rnd
          (totalCountRnd rnd (pre ++ ⟨word, c⟩ :: post) + 1)))⟩ :: post) := by
  simp [updateFoundRnd, bumpFirstRnd_split rnd word _ c pre post h]

theorem updateFoundRnd_insert_absent (rnd : ℚ → ℚ) (sort : List Prediction → List Prediction)
    (word : String) (l : List Prediction) (h : ∀ p ∈ l, p.word ≠ word) :
    updateFoundRnd rnd sort l word false
      = sort (l ++ [⟨word, rnd (1 / rnd (totalCountRnd rnd l + 1))⟩]) := by
  simp [updateFoundRnd, bumpFirstRnd_of_absent rnd word _ l h]

theorem updateFoundRnd_delete (rnd : ℚ → ℚ) (sort : List Prediction → List Prediction)
    (word : String) (l : List Prediction) :
    updateFoundRnd rnd sort l word true = sort (removeWord word l) := by
  simp [updateFoundRnd]

theorem UpdatePredictRnd_ok (rnd : ℚ → ℚ) (sort : List Prediction → List Prediction)
    (s : PredictDb) (key word : String) (todelete : Bool) (hv : s.valid = true) :
    ∃ s', s.UpdatePredictRnd rnd sort key word todelete = .ok s' ∧
      s'.stored key = some (updatedListRnd rnd sort (s.stored key) word todelete) ∧
      s'.valid = true ∧ ∀ k, k ≠ key → s'.stored k = s.stored k := by
  cases hdb : s.db_ with
  | none => simp [PredictDb.valid, hdb] at hv
  | some db =>
    refine ⟨{ s with
        db_ := some (db.Put key (updatedListRnd rnd sort (db.Get key) word todelete)) },
      by simp [PredictDb.UpdatePredictRnd, hdb], ?_, rfl, ?_⟩
    · simp [PredictDb.stored, hdb, LevelDB.Get, LevelDB.Put]
    · intro k hk
      simp [PredictDb.stored, hdb, LevelDB.Get, LevelDB.Put, hk]

theorem totalCountRnd_nonneg {rnd : ℚ → ℚ} (hr : RoundSpec rnd) (l : List Prediction)
    (h : ∀ p ∈ l, 0 ≤ p.count) : 0 ≤ totalCountRnd rnd l := by
  unfold totalCountRnd
  have key : ∀ (l : List Prediction) (a : ℚ), 0 ≤ a → (∀ p ∈ l, 0 ≤ p.count) →
      0 ≤ l.foldl (fun total_count entry => rnd (total_count + entry.count)) a := by
    intro l
    induction l with
    | nil => intro a ha _; exact ha
    | cons x xs ih =>
      intro a ha hl
      apply ih _ _ (fun p hp => hl p (List.mem_cons_of_mem _ hp))
      have hx := hl x (List.mem_cons_self _ _)
      have := hr.mono 0 (a + x.count) le_rfl (by linarith)
      rwa [hr.zero] at this
  exact key l 0 le_rfl h

/-- The rounded increment `1.0 / (total_count + 1.0)` is a non-negative double. -/
theorem increment_nonneg {rnd : ℚ → ℚ} (hr : RoundSpec rnd) {t : ℚ} (ht : 0 ≤ t) :
    0 ≤ rnd (1 / rnd (t + 1)) ∧ rnd (rnd (1 / rnd (t + 1))) = rnd (1 / rnd (t + 1)) := by
  have h1 : 1 ≤ rnd (t + 1) := by
    have := hr.mono 1 (t + 1) zero_le_one (by linarith)
    rwa [hr.one] at this
  have hq : (0 : ℚ) ≤ 1 / rnd (t + 1) := by
    apply div_nonneg zero_le_one
    linarith
  have := hr.mono 0 _ le_rfl hq
  rw [hr.zero] at this
  exact ⟨this, hr.idem _ hq⟩

/-- Adding a non-negative increment to a double never yields a smaller double. -/
theorem le_round_add {rnd : ℚ → ℚ} (hr : RoundSpec rnd) {c inc : ℚ} (hc : 0 ≤ c)
    (hrep : rnd c = c) (hinc : 0 ≤ inc) :
    c ≤ rnd (c + inc) ∧ rnd (rnd (c + inc)) = rnd (c + inc) := by
  have := hr.mono c (c + inc) hc (by linarith)
  rw [hrep] at this
  exact ⟨this, hr.idem _ (by linarith)⟩

theorem weightOf_of_split (word : String) (A B : List Prediction) (b : Prediction)
    (hb : b.word = word) :
    ∃ c', weightOf word (A ++ b :: B) = some c' ∧
      (c' = b.count ∨ ∃ x ∈ A, x.word = word ∧ x.count = c') := by
  induction A with
  | nil => exact ⟨b.count, by simp [weightOf, hb], Or.inl rfl⟩
  | cons x xs ih =>
    by_cases hx : x.word = word
    · exact ⟨x.count, by simp [weightOf, hx], Or.inr ⟨x, List.mem_cons_self _ _, hx, rfl⟩⟩
    · obtain ⟨c', hc', hor⟩ := ih
      refine ⟨c', ?_, ?_⟩
      · unfold weightOf at hc' ⊢
        simpa [List.find?_cons, hx] using hc'
      · rcases hor with h | ⟨y, hy, hyw, hyc⟩
        · exact Or.inl h
        · exact Or.inr ⟨y, List.mem_cons_of_mem _ hy, hyw, hyc⟩

/-- The written list is fit for ranking whenever the list read holds non-negative
doubles. -/
theorem updatedListRnd_ranked {rnd : ℚ → ℚ} {sort : List Prediction → List Prediction}
    (hr : RoundSpec rnd) (hsort : StdSortSpec sort) (got : Option (List Prediction))
    (word : String) (todelete : Bool)
    (h : ∀ l, got = some l → ∀ p ∈ l, 0 ≤ p.count ∧ rnd p.count = p.count) :
    Ranked rnd (updatedListRnd rnd sort got word todelete) := by
  cases got with
  | none =>
    cases todelete
    · refine ⟨by simp [updatedListRnd, Descending], ?_⟩
      intro p hp
      simp only [updatedListRnd, Bool.not_false, if_true, List.mem_singleton] at hp
      subst hp
      exact ⟨zero_le_one, hr.one⟩
    · refine ⟨by simp [updatedListRnd, Descending], ?_⟩
      intro p hp
      simp [updatedListRnd] at hp
  | some l =>
    have hl := h l rfl
    refine ⟨hsort.sorted _, ?_⟩
    have hinc := increment_nonneg hr (totalCountRnd_nonneg hr l (fun p hp => (hl p hp).1))
    intro p hp
    cases todelete with
    | true =>
      simp only [updatedListRnd, updateFoundRnd_delete] at hp
      have hp' := (hsort.perm _).mem_iff.1 hp
      exact hl p (List.mem_of_mem_filter hp')
    | false =>
      by_cases hw : ∃ q ∈ l, q.word = word
      · obtain ⟨pre, c, post, rfl, hpre⟩ := exists_first_split word l hw
        simp only [updatedListRnd, updateFoundRnd_insert_present rnd sort word c pre post hpre]
          at hp
        have hp' := (hsort.perm _).mem_iff.1 hp
        rcases List.mem_append.1 hp' with h1 | h1
        · exact hl p (List.mem_append_left _ h1)
        · rcases List.mem_cons.1 h1 with rfl | h1
          · have hc := hl ⟨word, c⟩ (by simp)
            have := le_round_add hr hc.1 hc.2 hinc.1
            exact ⟨le_trans hc.1 this.1, this.2⟩
          · exact hl p (List.mem_append_right _ (List.mem_cons_of_mem _ h1))
      · have hw' : ∀ q ∈ l, q.word ≠ word := fun q hq hqw => hw ⟨q, hq, hqw⟩
        simp only [updatedListRnd, updateFoundRnd_insert_absent rnd sort word l hw'] at hp
        have hp' := (hsort.perm _).mem_iff.1 hp
        rcases List.mem_append.1 hp' with h1 | h1
        · exact hl p h1
        · simp only [List.mem_singleton] at h1
          subst h1
          exact hinc

/-- One reinforcing update, in double arithmetic, on a ranked list that holds `word`:
the weight of `word` does not drop, and its rank does not get worse if the weight
grew. -/
theorem insert_step_rnd {rnd : ℚ → ℚ} {sort : List Prediction → List Prediction}
    (hr : RoundSpec rnd) (hsort : StdSortSpec sort) (L : List Prediction) (word : String)
    (hrk : Ranked rnd L) (hmem : ∃ p ∈ L, p.word = word) :
    ∃ c c', weightOf word L = some c ∧
      weightOf word (updateFoundRnd rnd sort L word false) = some c' ∧ c ≤ c' ∧
      (c < c' → rankOf word (updateFoundRnd rnd sort L word false) ≤ rankOf word L) ∧
      (∃ p ∈ updateFoundRnd rnd sort L word false, p.word = word) := by
  obtain ⟨hdesc, hval⟩ := hrk
  obtain ⟨pre, c, post, rfl, hpre⟩ := exists_first_split word L hmem
  have hinc := (increment_nonneg hr
    (totalCountRnd_nonneg hr _ (fun p hp => (hval p hp).1))).1
  rw [updateFoundRnd_insert_present rnd sort word c pre post hpre]
  generalize rnd (1 / rnd (totalCountRnd rnd (pre ++ ⟨word, c⟩ :: post) + 1)) = inc at hinc
  have hc := hval ⟨word, c⟩ (by simp)
  have hcb := (le_round_add hr hc.1 hc.2 hinc).1
  generalize rnd (c + inc) = cb at hcb
  have hperm := hsort.perm (pre ++ ⟨word, cb⟩ :: post)
  have hsorted := hsort.sorted (pre ++ ⟨word, cb⟩ :: post)
  generalize sort (pre ++ ⟨word, cb⟩ :: post) = L' at hperm hsorted
  have hb : (⟨word, cb⟩ : Prediction) ∈ L' := hperm.mem_iff.2 (by simp)
  obtain ⟨A, B, rfl⟩ := List.append_of_mem hb
  have hA : ∀ a ∈ A, cb ≤ a.count := by
    intro a ha
    exact (List.pairwise_append.1 hsorted).2.2 a ha _ (List.mem_cons_self _ _)
  have hpost : ∀ p ∈ post, p.count ≤ c := by
    intro p hp
    exact List.rel_of_pairwise_cons (List.pairwise_append.1 hdesc).2.1 hp
  have hrest : (A ++ B).Perm (pre ++ post) :=
    (List.perm_cons (⟨word, cb⟩ : Prediction)).1
      ((List.perm_middle.symm.trans hperm).trans List.perm_middle)
  obtain ⟨c', hc', hor⟩ := weightOf_of_split word A B ⟨word, cb⟩ rfl
  have hcb' : cb ≤ c' := by
    rcases hor with h | ⟨x, hx, -, hxc⟩
    · exact le_of_eq h.symm
    · rw [← hxc]; exact hA x hx
  refine ⟨c, c', weightOf_split word c pre post hpre, hc', le_trans hcb hcb', ?_,
    ⟨_, hb, rfl⟩⟩
  intro hlt
  have hgrow : c < cb := by
    rcases hor with h | ⟨x, hx, hxw, hxc⟩
    · rw [h] at hlt; exact hlt
    · exfalso
      have hx' : x ∈ pre ++ post := hrest.mem_iff.1 (List.mem_append_left _ hx)
      rcases List.mem_append.1 hx' with h1 | h1
      · exact hpre x h1 hxw
      · have := hpost x h1
        rw [hxc] at this
        exact absurd hlt (not_lt.2 this)
  rw [rankOf_split word c pre post hpre]
  refine le_trans (rankOf_le_of_split word A B _ rfl) ?_
  exact front_length_le A B pre post _ c hperm
    (fun a ha => lt_of_lt_of_le hgrow (hA a ha)) hpost

theorem update_step_rnd {rnd : ℚ → ℚ} {sort : List Prediction → List Prediction}
    (hr : RoundSpec rnd) (hsort : StdSortSpec sort) (s : PredictDb) (key word : String)
    (h : Reinforceable rnd s key word) :
    ∃ s' L L' c c', s.UpdatePredictRnd rnd sort key word false = .ok s' ∧
      s.stored key = some L ∧ s'.stored key = some L' ∧
      weightOf word L = some c ∧ weightOf word L' = some c' ∧ c ≤ c' ∧
      (c < c' → rankOf word L' ≤ rankOf word L) ∧ Reinforceable rnd s' key word := by
  obtain ⟨L, hL, hrk, hmem⟩ := h
  obtain ⟨s', hs', hst, -, -⟩ :=
    UpdatePredictRnd_ok rnd sort s key word false (valid_of_stored hL)
  have hrk' := updatedListRnd_ranked hr hsort (s.stored key) word false
    (fun l hl => by rw [hL] at hl; cases hl; exact hrk.2)
  rw [hL] at hst hrk'
  obtain ⟨c, c', hw, hw', hle, hrank, hmem'⟩ := insert_step_rnd hr hsort L word hrk hmem
  exact ⟨s', L, _, c, c', hs', hL, hst, hw, hw', hle, hrank, _, hst, hrk', hmem'⟩

theorem run_step_rnd {rnd : ℚ → ℚ} {sort : List Prediction → List Prediction}
    (hr : RoundSpec rnd) (hsort : StdSortSpec sort) (key word : String) (n : Nat) :
    ∀ s : PredictDb, Reinforceable rnd s key word →
      ∃ s₁ s₂ L₁ L₂ c₁ c₂, s.updateTimesRnd rnd sort key word false n = .ok s₁ ∧
        s₁.UpdatePredictRnd rnd sort key word false = .ok s₂ ∧
        s₁.stored key = some L₁ ∧ s₂.stored key = some L₂ ∧
        weightOf word L₁ = some c₁ ∧ weightOf word L₂ = some c₂ ∧ c₁ ≤ c₂ ∧
        (c₁ < c₂ → rankOf word L₂ ≤ rankOf word L₁) := by
  induction n with
  | zero =>
    intro s h
    obtain ⟨s', L, L', c, c', hs', hL, hL', hw, hw', hle, hrank, -⟩ :=
      update_step_rnd hr hsort s key word h
    exact ⟨s, s', L, L', c, c', rfl, hs', hL, hL', hw, hw', hle, hrank⟩
  | succ n ih =>
    intro s h
    obtain ⟨s', -, -, -, -, hs', -, -, -, -, -, -, hre⟩ :=
      update_step_rnd hr hsort s key word h
    obtain ⟨s₁, s₂, L₁, L₂, c₁, c₂, hrun, hrest⟩ := ih s' hre
    refine ⟨s₁, s₂, L₁, L₂, c₁, c₂, ?_, hrest⟩
    simp only [PredictDb.updateTimesRnd, hs']
    exact hrun

theorem UpdatePredictRnd_wellRanked {rnd : ℚ → ℚ} {sort : List Prediction → List Prediction}
    (hr : RoundSpec rnd) (hsort : StdSortSpec sort) (s : PredictDb) (key word : String)
    (todelete : Bool) (h : WellRanked rnd s) :
    ∃ s', s.UpdatePredictRnd rnd sort key word todelete = .ok s' ∧ WellRanked rnd s' := by
  obtain ⟨s', hs', hst, hv', hother⟩ := UpdatePredictRnd_ok rnd sort s key word todelete h.1
  refine ⟨s', hs', hv', ?_⟩
  intro k L hL
  by_cases hk : k = key
  · subst hk
    rw [hst] at hL
    cases hL
    exact updatedListRnd_ranked hr hsort _ word todelete (fun l hl => (h.2 k l hl).2)
  · rw [hother k hk] at hL
    exact h.2 k L hL

theorem applyUpdatesRnd_wellRanked {rnd : ℚ → ℚ} {sort : List Prediction → List Prediction}
    (hr : RoundSpec rnd) (hsort : StdSortSpec sort) (ops : List (String × String × Bool)) :
    ∀ s, WellRanked rnd s →
      ∃ s', s.applyUpdatesRnd rnd sort ops = .ok s' ∧ WellRanked rnd s' := by
  induction ops with
  | nil => intro s h; exact ⟨s, rfl, h⟩
  | cons op ops ih =>
    intro s h
    obtain ⟨key, word, todelete⟩ := op
    obtain ⟨s1, hs1, hw1⟩ := UpdatePredictRnd_wellRanked hr hsort s key word todelete h
    obtain ⟨s2, hs2, hw2⟩ := ih s1 hw1
    exact ⟨s2, by simp only [PredictDb.applyUpdatesRnd, hs1]; exact hs2, hw2⟩

theorem freshDb_wellRanked (rnd : ℚ → ℚ) : WellRanked rnd freshDb := by
  refine ⟨rfl, ?_⟩
  intro key L hL
  simp [freshDb, PredictDb.stored, PredictDb.new, PredictDb.Clear, LevelDB.Get,
    LevelDB.empty] at hL

theorem sample_doubles :
    ∀ p ∈ [(⟨"a", 2⟩ : Prediction), ⟨"世界", 1⟩], 0 ≤ p.count ∧ roundDouble p.count = p.count := by
  intro p hp
  simp only [List.mem_cons, List.mem_singleton, List.not_mem_nil, or_false] at hp
  rcases hp with rfl | rfl
  · refine ⟨by norm_num, ?_⟩
    simpa using roundDouble_intCast 2 (by norm_num) (by norm_num)
  · exact ⟨by norm_num, roundDouble_one⟩

/-! ## The heavy sample list -/

theorem heavyDb_stored : heavyDb.stored "你好" = some heavyList := by
  simp [heavyDb, PredictDb.stored, PredictDb.new, PredictDb.Clear, LevelDB.Get, LevelDB.Put]

theorem heavyList_count : ∀ p ∈ heavyList, p.count = 134217728 := by
  intro p hp
  obtain ⟨w, -, rfl⟩ := List.mem_map.1 hp
  rfl

theorem heavyList_reverse_count : ∀ p ∈ heavyList.reverse, p.count = 134217728 :=
  fun p hp => heavyList_count p (List.mem_reverse.1 hp)

theorem descending_of_const (l : List Prediction) (c : ℚ) (h : ∀ p ∈ l, p.count = c) :
    Descending l := by
  unfold Descending
  induction l with
  | nil => exact List.Pairwise.nil
  | cons x xs ih =>
    refine List.Pairwise.cons ?_ (ih (fun p hp => h p (List.mem_cons_of_mem _ hp)))
    intro b hb
    rw [h x (List.mem_cons_self _ _), h b (List.mem_cons_of_mem _ hb)]

theorem roundDouble_multiple (k : ℕ) (hk : k ≤ 17) :
    roundDouble ((k : ℚ) * 134217728) = (k : ℚ) * 134217728 := by
  rcases Nat.eq_zero_or_pos k with h0 | hpos
  · subst h0
    simpa using roundDouble_zero
  · have h := roundDouble_intCast ((k : ℤ) * 134217728) (by positivity) (by norm_num; omega)
    push_cast at h
    exact h

/-- Summing equal weights `c` in double arithmetic is exact while every partial sum
is a double. -/
theorem totalCountRnd_const (rnd : ℚ → ℚ) (c : ℚ) :
    ∀ (l : List Prediction) (j : ℕ), (∀ p ∈ l, p.count = c) →
      (∀ k : ℕ, k ≤ j + l.length → rnd ((k : ℚ) * c) = (k : ℚ) * c) →
      l.foldl (fun total_count entry => rnd (total_count + entry.count)) ((j : ℚ) * c)
        = ((j + l.length : ℕ) : ℚ) * c := by
  intro l
  induction l with
  | nil => intro j _ _; simp
  | cons x xs ih =>
    intro j hc hk
    have hx := hc x (List.mem_cons_self _ _)
    have h1 : rnd ((j : ℚ) * c + x.count) = ((j + 1 : ℕ) : ℚ) * c := by
      rw [hx, ← hk (j + 1) (by simp)]
      congr 1
      push_cast
      ring
    simp only [List.foldl_cons, h1]
    rw [ih (j + 1) (fun p hp => hc p (List.mem_cons_of_mem _ hp))
      (fun k hk' => hk k (by simp only [List.length_cons]; omega))]
    congr 2
    simp only [List.length_cons]
    omega

theorem heavyList_total : totalCountRnd roundDouble heavyList = 2281701376 := by
  have h := totalCountRnd_const roundDouble 134217728 heavyList 0 heavyList_count
    (fun k hk => roundDouble_multiple k (by simpa [heavyList] using hk))
  simp only [Nat.cast_zero, zero_mul] at h
  unfold totalCountRnd
  rw [h]
  norm_num [heavyList]

/-- On `heavyList` the increment `1/(total+1)` is lost when added to `2^27`. -/
theorem heavyList_absorbed :
    roundDouble (134217728 + roundDouble (1 / roundDouble
      (totalCountRnd roundDouble heavyList + 1))) = 134217728 := by
  rw [heavyList_total]
  have e : roundDouble ((2281701376 : ℚ) + 1) = 2281701377 := by
    have := roundDouble_intCast 2281701377 (by norm_num) (by norm_num)
    norm_num at this ⊢
    exact this
  rw [e]
  apply roundDouble_absorb
  · exact roundDouble_nonneg (by norm_num)
  · have hm := roundDouble_mono (x := 1 / 2281701377) (y := 1 / 2147483648)
      (by norm_num) (by norm_num)
    have hg := roundDouble_grid 1 (-31) (by norm_num) (by norm_num) (by norm_num)
    norm_num at hg
    rw [hg] at hm
    exact hm

theorem heavyList_updated :
    updateFoundRnd roundDouble reverseSortDesc heavyList "世界" false = heavyList.reverse := by
  have hsplit : heavyList = [] ++ ⟨"世界", 134217728⟩ :: heavyList.tail := rfl
  have hu := updateFoundRnd_insert_present roundDouble reverseSortDesc "世界" 134217728 []
    heavyList.tail (by simp)
  rw [← hsplit, heavyList_absorbed, ← hsplit] at hu
  rw [hu]
  unfold reverseSortDesc insertionSortDesc
  exact List.Sorted.insertionSort_eq
    (descending_of_const _ _ heavyList_reverse_count)

/-! ## Claim on reinforcement monotonicity -/

/-- C4 as stated fails in the code's double arithmetic.  The store holds, under `你好`,
seventeen records of weight `2^27`, `世界` first: a descending list of non-negative
doubles that holds the word.  The increment `1/(17 * 2^27 + 1)` is lost when added to
`2^27`, the weight of `世界` stays tied with the others, and a sort that is free on ties
moves `世界` from position `0` to position `16`. -/
theorem reinforcement_rank_can_drop :
    StdSortSpec reverseSortDesc ∧
    heavyDb.stored "你好" = some heavyList ∧ Descending heavyList ∧
    (∀ p ∈ heavyList, 0 ≤ p.count ∧ roundDouble p.count = p.count) ∧
    (∃ p ∈ heavyList, p.word = "世界") ∧
    weightOf "世界" heavyList = some 134217728 ∧ rankOf "世界" heavyList = 0 ∧
    ∃ s' L', heavyDb.UpdatePredictRnd roundDouble reverseSortDesc "你好" "世界" false = .ok s' ∧
      s'.stored "你好" = some L' ∧
      weightOf "世界" L' = some 134217728 ∧ rankOf "世界" L' = 16 ∧
      ¬ rankOf "世界" L' ≤ rankOf "世界" heavyList := by
  refine ⟨stdSortSpec_reverseSortDesc, heavyDb_stored,
    descending_of_const _ _ heavyList_count, ?_, ⟨⟨"世界", 134217728⟩, by simp [heavyList], rfl⟩,
    rfl, rfl, ?_⟩
  · intro p hp
    rw [heavyList_count p hp]
    refine ⟨by norm_num, ?_⟩
    have := roundDouble_multiple 1 (by norm_num)
    simpa using this
  · obtain ⟨s', hs', hst, -, -⟩ :=
      UpdatePredictRnd_ok roundDouble reverseSortDesc heavyDb "你好" "世界" false rfl
    rw [heavyDb_stored] at hst
    simp only [updatedListRnd, heavyList_updated] at hst
    exact ⟨s', _, hs', hst, rfl, rfl, by decide⟩

/-- C4 (amended): on a store whose list under `key` is sorted by weight descending,
holds non-negative doubles and already holds `word`, one non-delete
`UpdatePredict(key, word, false)` in double arithmetic does not decrease the weight of
`word`, and does not move `word` to a later position whenever that weight has strictly
grown, for every admissible tie order of the sort; the same holds for the update that
follows any number `n` of such updates; and every state reached from an empty store by
updates has only descending lists of non-negative doubles. -/
theorem reinforcement_monotone_rounded {rnd : ℚ → ℚ} {sort : List Prediction → List Prediction}
    (hr : RoundSpec rnd) (hsort : StdSortSpec sort) (s : PredictDb) (key word : String)
    (L : List Prediction) (hL : s.stored key = some L) (hdesc : Descending L)
    (hval : ∀ p ∈ L, 0 ≤ p.count ∧ rnd p.count = p.count)
    (hmem : ∃ p ∈ L, p.word = word) :
    (∃ s' L' c c', s.UpdatePredictRnd rnd sort key word false = .ok s' ∧
      s'.stored key = some L' ∧ weightOf word L = some c ∧ weightOf word L' = some c' ∧
      c ≤ c' ∧ (c < c' → rankOf word L' ≤ rankOf word L)) ∧
    (∀ n : Nat, ∃ s₁ s₂ L₁ L₂ c₁ c₂,
      s.updateTimesRnd rnd sort key word false n = .ok s₁ ∧
      s₁.UpdatePredictRnd rnd sort key word false = .ok s₂ ∧
      s₁.stored key = some L₁ ∧ s₂.stored key = some L₂ ∧
      weightOf word L₁ = some c₁ ∧ weightOf word L₂ = some c₂ ∧ c₁ ≤ c₂ ∧
      (c₁ < c₂ → rankOf word L₂ ≤ rankOf word L₁)) ∧
    (∀ ops : List (String × String × Bool),
      ∃ r, freshDb.applyUpdatesRnd rnd sort ops = .ok r ∧
        ∀ k l, r.stored k = some l →
          Descending l ∧ ∀ p ∈ l, 0 ≤ p.count ∧ rnd p.count = p.count) := by
  have hre : Reinforceable rnd s key word := ⟨L, hL, ⟨hdesc, hval⟩, hmem⟩
  refine ⟨?_, ?_, ?_⟩
  · obtain ⟨s', L0, L', c, c', hs', hL0, hL', hw, hw', hle, hrank, -⟩ :=
      update_step_rnd hr hsort s key word hre
    rw [hL] at hL0
    cases hL0
    exact ⟨s', L', c, c', hs', hL', hw, hw', hle, hrank⟩
  · intro n
    exact run_step_rnd hr hsort key word n s hre
  · intro ops
    obtain ⟨r, hrun, -, hwr⟩ :=
      applyUpdatesRnd_wellRanked hr hsort ops freshDb (freshDb_wellRanked rnd)
    exact ⟨r, hrun, fun k l hl => hwr k l hl⟩

theorem reinforcement_monotone_rounded_witness :
    RoundSpec roundDouble ∧ StdSortSpec reverseSortDesc ∧
    sampleDb.stored "你好" = some [⟨"a", 2⟩, ⟨"世界", 1⟩] ∧
    Descending [⟨"a", 2⟩, ⟨"世界", 1⟩] ∧
    (∀ p ∈ [(⟨"a", 2⟩ : Prediction), ⟨"世界", 1⟩], 0 ≤ p.count ∧ roundDouble p.count = p.count) ∧
    (∃ p ∈ [(⟨"a", 2⟩ : Prediction), ⟨"世界", 1⟩], p.word = "世界") ∧
    ∃ s' L' c c', sampleDb.UpdatePredictRnd roundDouble reverseSortDesc "你好" "世界" false
        = .ok s' ∧
      s'.stored "你好" = some L' ∧
      weightOf "世界" [⟨"a", 2⟩, ⟨"世界", 1⟩] = some c ∧ weightOf "世界" L' = some c' ∧
      c ≤ c' ∧ (c < c' → rankOf "世界" L' ≤ rankOf "世界" [⟨"a", 2⟩, ⟨"世界", 1⟩]) :=
  ⟨roundSpec_roundDouble, stdSortSpec_reverseSortDesc, sampleDb_stored, sample_descending,
    sample_doubles, ⟨⟨"世界", 1⟩, by simp, rfl⟩,
    (reinforcement_monotone_rounded roundSpec_roundDouble stdSortSpec_reverseSortDesc sampleDb
      "你好" "世界" _ sampleDb_stored sample_descending sample_doubles
      ⟨⟨"世界", 1⟩, by simp, rfl⟩).1⟩

end rime
